import Mathlib

/-!
Verification of the autoruby furigana-annotation library.

This file gives a shallow embedding, in Lean 4, of the parts of the autoruby
sources relevant to the frozen claims, and proves or refutes each claim.

Conventions of the embedding:
* Rust strings (`String` / `str`) are modelled as lists of Unicode scalar
  values (`Str := List Char`).  Rust's byte-wise lexicographic order on UTF-8
  strings coincides with code-point lexicographic order, and byte prefixes at
  character boundaries coincide with character prefixes, so `starts_with`,
  `Ord` and slicing are modelled directly on the character lists.
* Fallible operations (panicking slice indexing, parsers, the fueled
  segmentation loop) return `Option`/`Except`.
* The sqlite database backing `annotate.rs` is modelled as in-memory lists of
  rows (`Db`), and SQL queries as list operations that reproduce the queried
  filters and orderings.
* The external morphological tokenizer (lindera) is an external collaborator:
  token streams are parameters, and the katakana-to-hiragana conversion from
  the wana_kana crate is an opaque function parameter `toHiragana`.
-/

namespace Autoruby

/-- Characters of a Rust string, as a list of Unicode scalar values. -/
abbrev Str := List Char

/-- Converts a Lean string literal to its character list. -/
def strOf (s : String) : Str := s.data

/-- Unicode `White_Space` property, which is what Rust's `str::trim` strips. -/
def isUnicodeWhitespace (c : Char) : Bool :=
  (0x09 ≤ c.toNat && c.toNat ≤ 0x0D) || c.toNat == 0x20 || c.toNat == 0x85 ||
  c.toNat == 0xA0 || c.toNat == 0x1680 ||
  (0x2000 ≤ c.toNat && c.toNat ≤ 0x200A) || c.toNat == 0x2028 ||
  c.toNat == 0x2029 || c.toNat == 0x202F || c.toNat == 0x205F ||
  c.toNat == 0x3000

/-- Models `text.trim().is_empty()` from `annotate.rs`: a string trims to the
empty string exactly when all of its characters are whitespace. -/
def trimIsEmpty (s : Str) : Bool := s.all isUnicodeWhitespace

/-! ### Data model of `annotate.rs` -/

/-- Mirrors `AnnotationSpan` (annotate.rs): a reading for the inclusive
character range `[start_index, end_index]` of a fragment's text. -/
structure AnnotationSpan where
  start_index : Nat
  end_index : Nat
  text : Str
deriving DecidableEq

/-- Mirrors `Annotation` (annotate.rs): a full reading plus its spans. -/
structure Annotation where
  reading : Str
  spans : List AnnotationSpan
deriving DecidableEq

/-- Mirrors `AnnotatedTextFragment` (annotate.rs). -/
structure AnnotatedTextFragment where
  text : Str
  annotations : List Annotation
deriving DecidableEq

/-- Mirrors `AnnotatedText` (annotate.rs). -/
structure AnnotatedText where
  fragments : List AnnotatedTextFragment
deriving DecidableEq

/-- Mirrors `InternalToken` (annotate.rs). -/
structure InternalToken where
  original_text : Str
  lookup_text : Str
  reading_hint : Option Str
deriving DecidableEq

/-- Models a lindera token: its surface text and, when present, the
9-element detail record of the IPADIC dictionary. -/
structure Token where
  text : Str
  details : Option (List Str)
deriving DecidableEq

/-- Row of the sqlite `text_entry` table used by `annotate.rs`.  The queries in
`annotate.rs` read the columns `id`, `text`, `reading`, `text_common`; the
`reading_common` column is carried along because the specification's candidate
ranking refers to it. -/
structure TextEntryRow where
  id : Nat
  text : Str
  reading : Str
  text_common : Bool
  reading_common : Bool
deriving DecidableEq

/-- Row of the sqlite `ruby_entry` table used by `annotate.rs`. -/
structure RubyEntryRow where
  text_entry_id : Nat
  start_index : Nat
  end_index : Nat
  rt : Str
deriving DecidableEq

/-- The sqlite database backing an `Annotator`, as in-memory rows in table
order. -/
structure Db where
  text_entries : List TextEntryRow
  ruby_entries : List RubyEntryRow
deriving DecidableEq

/-! ### `Annotation::apply` (the span renderer) -/

/-- Total character slice `[a, b)` of a list, used to state what a successful
Rust slice `&text[a..b]` evaluates to. -/
def sliceAt (text : Str) (a b : Nat) : Str := (text.drop a).take (b - a)

/-- Rust slice `&text[a..b]`: the panics of out-of-range indexing are modelled
by `none`. -/
def sliceChecked (text : Str) (a b : Nat) : Option Str :=
  if a ≤ b ∧ b ≤ text.length then some (sliceAt text a b) else none

/-- Mirrors `Annotation::apply` (annotate.rs).  The Rust function folds over
`self.spans` with state `(valid_next_index, accumulated string)`; a span is
applied only when `span.start_index >= valid_next_index`.  The slice
operations `&text[valid_next_index..span.start_index]`,
`&text[span.start_index..=span.end_index]` and the final `&text[last_index..]`
panic when out of range; those panics are modelled by `none`.  `applyStep` is
the fold closure of `Annotation::apply`. -/
def applyStep (text : Str) (format : Str → Str → Str)
    (acc : Option (Nat × Str)) (span : AnnotationSpan) : Option (Nat × Str) :=
  acc.bind fun vs =>
    if vs.1 ≤ span.start_index then
      (sliceChecked text vs.1 span.start_index).bind fun untouched =>
      (sliceChecked text span.start_index (span.end_index + 1)).bind fun base =>
      some (span.end_index + 1, vs.2 ++ untouched ++ format base span.text)
    else some vs

/-- Mirrors `Annotation::apply` (annotate.rs), folding `applyStep` over the
spans and appending the untouched tail. -/
def Annotation.apply (self : Annotation) (text : Str) (format : Str → Str → Str) :
    Option Str :=
  (self.spans.foldl (applyStep text format) (some ((0 : Nat), ([] : Str)))).bind
    fun ls => (sliceChecked text ls.1 text.length).map fun tail => ls.2 ++ tail

/-- Modelled from the spec (section 4.5, Span Renderer), as quoted by claim C3:
for each span in ascending order, if `span.start >= nextValidIndex` emit the
untouched slice `[nextValidIndex, span.start)` and then
`format(base, reading)` with `base` the substring `[span.start, span.end]`,
advancing `nextValidIndex` to `span.end + 1`; skip spans whose start precedes
`nextValidIndex`; finally append the remaining tail. -/
def specApply (text : Str) (format : Str → Str → Str) :
    Nat → List AnnotationSpan → Str
  | vi, [] => text.drop vi
  | vi, span :: rest =>
    if vi ≤ span.start_index then
      sliceAt text vi span.start_index ++
        format (sliceAt text span.start_index (span.end_index + 1)) span.text ++
        specApply text format (span.end_index + 1) rest
    else specApply text format vi rest

/-- The spans of an annotation that `Annotation::apply` accepts (those whose
`start_index` is at least the current next-valid index), collected by the same
fold discipline as `apply` itself. -/
def acceptedSpans : List AnnotationSpan → Nat → List AnnotationSpan
  | [], _ => []
  | span :: rest, vi =>
    if vi ≤ span.start_index then span :: acceptedSpans rest (span.end_index + 1)
    else acceptedSpans rest vi

/-- One piece of output of `Annotation::apply`: either an untouched source
slice `[lo, hi)`, or a formatted base slice `[lo, hi)` carrying a reading. -/
inductive ApplyPiece where
  | untouched (lo hi : Nat)
  | annotated (lo hi : Nat) (reading : Str)
deriving DecidableEq

/-- Source range `[lo, hi)` of a piece. -/
def pieceLo : ApplyPiece → Nat
  | .untouched lo _ => lo
  | .annotated lo _ _ => lo

/-- Source range upper bound of a piece. -/
def pieceHi : ApplyPiece → Nat
  | .untouched _ hi => hi
  | .annotated _ hi _ => hi

/-- Renders one piece against the source text, as `Annotation::apply` does. -/
def renderPiece (text : Str) (format : Str → Str → Str) : ApplyPiece → Str
  | .untouched lo hi => sliceAt text lo hi
  | .annotated lo hi r => format (sliceAt text lo hi) r

/-- The pieces emitted by the fold of `Annotation::apply`, together with the
final value of the next-valid index. -/
def applyPiecesAux : List AnnotationSpan → Nat → List ApplyPiece × Nat
  | [], vi => ([], vi)
  | span :: rest, vi =>
    if vi ≤ span.start_index then
      let p := applyPiecesAux rest (span.end_index + 1)
      (.untouched vi span.start_index ::
        .annotated span.start_index (span.end_index + 1) span.text :: p.1, p.2)
    else applyPiecesAux rest vi

/-- All pieces emitted by `Annotation::apply`, including the trailing
untouched tail slice. -/
def applyPieces (spans : List AnnotationSpan) (len : Nat) : List ApplyPiece :=
  (applyPiecesAux spans 0).1 ++ [.untouched (applyPiecesAux spans 0).2 len]

/-- Checks that a list of pieces covers strictly advancing source ranges:
every piece starts no earlier than `vi`, each piece's range is non-collapsing,
consecutive pieces do not overlap, and the final bound is at most `last`. -/
def piecesBounded (vi : Nat) : List ApplyPiece → Nat → Bool
  | [], last => decide (vi ≤ last)
  | p :: ps, last =>
    decide (vi ≤ pieceLo p) && decide (pieceLo p ≤ pieceHi p) &&
      piecesBounded (pieceHi p) ps last

/-! ### Database queries of `annotate.rs` -/

/-- Stable insertion (by ascending `end_index`) used to model the SQL
`order by end_index asc` on ruby rows. -/
def insertByEnd (re : RubyEntryRow) : List RubyEntryRow → List RubyEntryRow
  | [] => [re]
  | x :: xs =>
    if re.end_index ≤ x.end_index then re :: x :: xs
    else x :: insertByEnd re xs

/-- Stable sort by ascending `end_index` (insertion sort). -/
def sortByEnd : List RubyEntryRow → List RubyEntryRow
  | [] => []
  | x :: xs => insertByEnd x (sortByEnd xs)

/-- Mirrors the query of `Annotator::find_annotations_for_word`: the join of
`text_entry` and `ruby_entry` restricted to `text = word`, ordered by
`text_entry_id asc, end_index asc`.  Table order already has rows in ascending
`id` order per the sqlite build, and the join below enumerates text entries in
table order with each entry's ruby rows sorted by `end_index`, which realizes
the SQL ordering. -/
def annotationRows (db : Db) (word : Str) : List (Nat × Str × AnnotationSpan) :=
  ((db.text_entries.filter (fun te => te.text = word)).map (fun te =>
    (sortByEnd (db.ruby_entries.filter (fun re => re.text_entry_id = te.id))).map
      (fun re => (te.id, te.reading,
        ({ start_index := re.start_index, end_index := re.end_index,
           text := re.rt } : AnnotationSpan))))).flatten

/-- Mirrors the grouping loop of `Annotator::find_annotations_for_word`:
rows are grouped into one `Annotation` per `text_entry_id`, with `0` as the
sentinel for "no previous group" (sqlite ids start at 1).  `appendSpanToLast`
models `annotations.last_mut().unwrap().spans.push(span)`; the Rust code would
panic on an empty vector, which can only happen with a row id equal to the
sentinel. -/
def appendSpanToLast (anns : List Annotation) (span : AnnotationSpan) :
    List Annotation :=
  match anns with
  | [] => []
  | a :: rest =>
    let l := (a :: rest).getLast (by simp)
    (a :: rest).dropLast ++ [{ l with spans := l.spans ++ [span] }]

/-- Grouping fold of `Annotator::find_annotations_for_word`. -/
def groupRows (rows : List (Nat × Str × AnnotationSpan)) : List Annotation :=
  (rows.foldl
    (fun acc row =>
      if row.1 ≠ acc.2 then
        (acc.1 ++ [{ reading := row.2.1, spans := [row.2.2] }], row.1)
      else (appendSpanToLast acc.1 row.2.2, acc.2))
    (([] : List Annotation), (0 : Nat))).1

/-- Mirrors `Annotator::find_annotations_for_word`. -/
def find_annotations_for_word (db : Db) (word : Str) : List Annotation :=
  groupRows (annotationRows db word)

/-- Mirrors `Annotator::is_kanji_common`: `query_row` returns the first row of
`select text_common from text_entry where text = ?1` (in table order), and
`unwrap_or_default` turns "no row" into `false`. -/
def is_kanji_common (db : Db) (input : Str) : Bool :=
  ((db.text_entries.find? (fun te => te.text = input)).map
    (fun te => te.text_common)).getD false

/-- Mirrors `Annotator::query_text_entries_starting_with`: the `LIKE`-escaping
of `%`, `_` and `\` makes the SQL pattern `?1 || '%' escape '\'` a literal
prefix match, so the query returns the `text` of every `text_entry` row whose
text starts with the given string. -/
def query_text_entries_starting_with (db : Db) (pre : Str) : List Str :=
  (db.text_entries.filter (fun te => pre.isPrefixOf te.text)).map
    (fun te => te.text)

/-! ### Internal tokens and per-fragment annotation -/

/-- Mirrors `TryFrom<&lindera::Token> for InternalToken` combined with the
fallback `unwrap_or_else(|_| t.text.clone().into())` used at the only call
site (annotate.rs line 352): a token whose detail record has exactly the
9-element IPADIC shape yields lemma lookup text and a hiragana reading hint;
any other shape (including missing details) degrades the token to its surface
text with no hint, via `From<Cow> for InternalToken`. -/
def internalTokenOfToken (toHiragana : Str → Str) (t : Token) : InternalToken :=
  match t.details with
  | some [_, _, _, _, _, _, dictionary_form, reading_katakana, _] =>
    { original_text := t.text, lookup_text := dictionary_form,
      reading_hint := some (toHiragana reading_katakana) }
  | _ => { original_text := t.text, lookup_text := t.text, reading_hint := none }

/-- Mirrors `Annotator::annotate_internal_token`.  Note that the avoid-common
early return constructs the plain fragment from `token.lookup_text`, not
`token.original_text` — this is what the source does. -/
def annotate_internal_token (db : Db) (avoid_common : Bool)
    (token : InternalToken) : AnnotatedTextFragment :=
  if avoid_common && is_kanji_common db token.lookup_text then
    { text := token.lookup_text, annotations := [] }
  else
    match token.reading_hint with
    | none =>
      { text := token.original_text,
        annotations := find_annotations_for_word db token.lookup_text }
    | some reading_hint =>
      let p := (find_annotations_for_word db token.lookup_text).partition
        (fun v => v.reading = reading_hint)
      { text := token.original_text, annotations := p.1 ++ p.2 }

/-! ### The segmenter loop of `Annotator::annotate` -/

/-- Concatenated surface text of the token window `[a, b)`, mirroring
`tokens[a..b].iter().map(|t| t.text.as_ref()).collect::<String>()`. -/
def concatTokenTexts (tokens : List Token) (a b : Nat) : Str :=
  (((tokens.drop a).take (b - a)).map (fun t => t.text)).flatten

/-- Mirrors the shrink loop of `Annotator::annotate` (lines 329–340): starting
from the current exclusive window end, decrement while the window
concatenation is not contained in the candidate list, stopping at
`token_buffer_start`. -/
def shrinkEnd (tokens : List Token) (poss : List Str) (start : Nat) :
    Nat → Nat
  | 0 => 0
  | e + 1 =>
    if e + 1 ≤ start then e + 1
    else if poss.contains (concatTokenTexts tokens start (e + 1)) then e + 1
    else shrinkEnd tokens poss start e

/-- One emitted window of the segmenter: tokens `[startIdx, stopIdx)` become
one internal token; `explored` records the exclusive window end
(`token_buffer_end`) at the moment the window was closed. -/
structure Segment where
  startIdx : Nat
  stopIdx : Nat
  explored : Nat
deriving DecidableEq

/-- The value `token_buffer_start` takes after a window is emitted
(annotate.rs lines 346–362): one past the start for a missing or single-token
match (`longest_is_single_token`), the shrunken end for a multi-token match. -/
def segNewStart (tokens : List Token) (poss : List Str) (start e : Nat) : Nat :=
  if shrinkEnd tokens poss start e ≤ start + 1 then start + 1
  else shrinkEnd tokens poss start e

/-- The candidate refresh after a window is emitted (annotate.rs lines
367–369): `buffer_possibilities` is recomputed by prefix query on the token
now at `token_buffer_start`, or left unchanged when the stream is exhausted. -/
def segPoss2 (tokens : List Token) (db : Db) (poss : List Str) (ns : Nat) :
    List Str :=
  match tokens[ns]? with
  | some t => query_text_entries_starting_with db t.text
  | none => poss

/-- Mirrors the `while token_buffer_start < tokens.len()` loop of
`Annotator::annotate` (lines 308–371), with explicit fuel; `none` models fuel
exhaustion and is proved unreachable for sufficient fuel.  The first branch
is the window extension (`next_token_exists && possibilities_remain`); the
second closes the window: `shrinkEnd` finds the longest exact match, the
window `[start, segNewStart)` is emitted, and the candidates are refreshed.
Instead of pushing `InternalToken`s directly the loop records the window of
each push; the internal tokens are recovered by `internalTokenOfSegment`. -/
def segLoop (tokens : List Token) (db : Db) :
    Nat → Nat → Nat → List Str → Option (List Segment)
  | 0, _, _, _ => none
  | fuel + 1, start, e, poss =>
    if start < tokens.length then
      if e < tokens.length &&
          poss.any (fun p => (concatTokenTexts tokens start e).isPrefixOf p) then
        segLoop tokens db fuel start (e + 1) poss
      else
        (segLoop tokens db fuel (segNewStart tokens poss start e)
            (segNewStart tokens poss start e + 1)
            (segPoss2 tokens db poss (segNewStart tokens poss start e))).map
          (fun segs =>
            (⟨start, segNewStart tokens poss start e, e⟩ : Segment) :: segs)
    else some []

/-- The internal token a segment denotes: a one-token window goes through the
`try_into` conversion of the token at `startIdx` (annotate.rs line 352), a
longer window becomes the owned concatenation with no reading hint
(annotate.rs lines 356–360). -/
def internalTokenOfSegment (toHiragana : Str → Str) (tokens : List Token)
    (seg : Segment) : InternalToken :=
  if seg.stopIdx = seg.startIdx + 1 then
    internalTokenOfToken toHiragana (tokens.getD seg.startIdx ⟨[], none⟩)
  else
    { original_text := concatTokenTexts tokens seg.startIdx seg.stopIdx,
      lookup_text := concatTokenTexts tokens seg.startIdx seg.stopIdx,
      reading_hint := none }

/-- Fuel that the termination proof shows sufficient for `segLoop` from the
initial state. -/
def segFuel (tokens : List Token) : Nat :=
  (tokens.length + 1) * (tokens.length + 4)

/-- Mirrors `Annotator::annotate`.  The tokenizer is external: the token
stream for the input text is passed in.  Whitespace-only input short-circuits
to an empty `AnnotatedText`; otherwise the code indexes `tokens[0]`, which is
modelled by `none` on an empty stream (the source notes "tokens must have at
least one element"). -/
def annotate (db : Db) (avoid_common : Bool) (toHiragana : Str → Str)
    (text : Str) (tokens : List Token) : Option AnnotatedText :=
  if trimIsEmpty text then some { fragments := [] }
  else
    match tokens with
    | [] => none
    | t0 :: _ =>
      (segLoop tokens db (segFuel tokens) 0 1
          (query_text_entries_starting_with db t0.text)).map
        (fun segs =>
          { fragments := segs.map (fun seg =>
              annotate_internal_token db avoid_common
                (internalTokenOfSegment toHiragana tokens seg)) })

/-! ### Lexicographic string order (Rust `Ord` on `String`)

Rust compares `String`s byte-wise lexicographically; on valid UTF-8 this
agrees with code-point lexicographic order, which is what `strLt` computes. -/

/-- Strict lexicographic order on character lists. -/
def strLt : Str → Str → Bool
  | _, [] => false
  | [], _ :: _ => true
  | a :: xs, b :: ys =>
    if a < b then true
    else if a = b then strLt xs ys
    else false

/-! ### Data model of `dictionary.rs` -/

/-- Mirrors `ReadingSpan` (dictionary.rs): indices are `u8` in the source; the
parser only produces values at most 255, so they are carried as `Nat`. -/
structure ReadingSpan where
  start_index : Nat
  end_index : Nat
  text : Str
deriving DecidableEq

/-- Mirrors `TextEntry` (dictionary.rs). -/
structure TextEntry where
  text : Str
  text_is_common : Bool
  reading : Str
  reading_is_common : Bool
  reading_spans : List ReadingSpan
deriving DecidableEq

/-- Mirrors `Index` (dictionary.rs): the BTreeMap key, ordered by derived
(text-major, then reading) lexicographic order. -/
structure Index where
  text : Str
  reading : Str
deriving DecidableEq

/-- The derived `Ord` of `Index`: lexicographic on `(text, reading)`. -/
def Index.lt (a b : Index) : Bool :=
  if strLt a.text b.text then true
  else if a.text = b.text then strLt a.reading b.reading
  else false

/-- Mirrors `Index::from(word)`: key with the given text and empty reading. -/
def Index.fromText (s : Str) : Index := ⟨s, []⟩

/-- Mirrors `Dictionary` (dictionary.rs): the `BTreeMap<Index, TextEntry>` is
modelled as its ordered association list (ascending, duplicate-free keys). -/
structure Dictionary where
  entries : List (Index × TextEntry)
deriving DecidableEq

/-- Mirrors `Dictionary::lookup_word`: `range(Index::from(word)..)` yields the
suffix of entries whose key is not below `(word, "")`, and `map_while` keeps
entries while the key text equals the word. -/
def Dictionary.lookup_word (d : Dictionary) (word : Str) : List TextEntry :=
  (((d.entries.dropWhile (fun kv => Index.lt kv.1 (Index.fromText word))).takeWhile
    (fun kv => kv.1.text = word)).map (fun kv => kv.2))

/-- Mirrors `Dictionary::lookup_prefixed`: as `lookup_word`, but keeping
entries while the key text starts with the prefix string. -/
def Dictionary.lookup_prefixed (d : Dictionary) (p : Str) : List TextEntry :=
  (((d.entries.dropWhile (fun kv => Index.lt kv.1 (Index.fromText p))).takeWhile
    (fun kv => p.isPrefixOf kv.1.text)).map (fun kv => kv.2))

/-- Mirrors `FrequencyEntry` (dictionary.rs): frequency metadata from the
external jmdict corpus. -/
structure FrequencyEntry where
  kanji_element : Str
  kanji_common : Bool
  reading_element : Str
  reading_common : Bool
deriving DecidableEq

/-! ### The nom parsers of `parse.rs` -/

/-- Result of `parse::ReadingSpan` (borrowed form of `ReadingSpan`). -/
structure ParseReadingSpan where
  start_index : Nat
  end_index : Nat
  text : Str
deriving DecidableEq

/-- Result of `parse::TextEntry` (borrowed form of a dictionary line). -/
structure ParseTextEntry where
  text : Str
  reading : Str
  reading_spans : List ParseReadingSpan
deriving DecidableEq

/-- Mirrors nom's `take_until("|")`: the consumed prefix before the first
`'|'` and the rest starting at that `'|'`; fails when no `'|'` occurs. -/
def takeUntilBar : Str → Option (Str × Str)
  | [] => none
  | c :: rest =>
    if c = '|' then some ([], c :: rest)
    else (takeUntilBar rest).map (fun p => (c :: p.1, p.2))

/-- Mirrors nom's `char(c)`: consumes exactly the given character. -/
def charP (c : Char) : Str → Option Str
  | [] => none
  | c0 :: rest => if c0 = c then some rest else none

/-- Mirrors nom's `digit1`: one or more ASCII digits. -/
def digit1 (s : Str) : Option (Str × Str) :=
  let ds := s.takeWhile (fun c => c.isDigit)
  if ds = [] then none else some (ds, s.dropWhile (fun c => c.isDigit))

/-- Numeric value of an ASCII digit string. -/
def digitsToNat (ds : Str) : Nat :=
  ds.foldl (fun n c => n * 10 + (c.toNat - '0'.toNat)) 0

/-- Mirrors `str::parse::<u8>` on a digit string: fails above 255. -/
def parseU8 (ds : Str) : Option Nat :=
  if digitsToNat ds ≤ 255 then some (digitsToNat ds) else none

/-- Mirrors `parse::take_range`: `digit1`, optionally `'-'` and `digit1`, both
parsed as `u8` (`map_res`); a missing end makes a single-index range. -/
def take_range (s : Str) : Option ((Nat × Nat) × Str) :=
  (digit1 s).bind fun d1 =>
    match d1.2 with
    | '-' :: r2 =>
      (match digit1 r2 with
       | some d2 =>
         (parseU8 d1.1).bind fun a =>
           (parseU8 d2.1).map fun b => ((a, b), d2.2)
       | none => (parseU8 d1.1).map fun a => ((a, a), d1.2))
    | _ => (parseU8 d1.1).map fun a => ((a, a), d1.2)

/-- Mirrors `take_till1(|c| c == '\n' || c == ';')`: one or more characters up
to a newline or semicolon. -/
def takeTill1Reading (s : Str) : Option (Str × Str) :=
  let taken := s.takeWhile (fun c => !(c = '\n' || c = ';'))
  if taken = [] then none
  else some (taken, s.dropWhile (fun c => !(c = '\n' || c = ';')))

/-- Mirrors `parse::take_reading_span`: a range, `':'`, and the reading. -/
def take_reading_span (s : Str) : Option (ParseReadingSpan × Str) :=
  (take_range s).bind fun r =>
    match r.2 with
    | ':' :: r2 =>
      (takeTill1Reading r2).map fun t => (⟨r.1.1, r.1.2, t.1⟩, t.2)
    | _ => none

/-- Tail loop of nom's `separated_list0(char(';'), take_reading_span)`: each
iteration consumes the separator and one element or stops.  The fuel is the
length of the remaining input, which every successful iteration strictly
decreases. -/
def sepTail : Nat → Str → List ParseReadingSpan → List ParseReadingSpan × Str
  | 0, s, acc => (acc.reverse, s)
  | fuel + 1, s, acc =>
    match s with
    | ';' :: r1 =>
      (match take_reading_span r1 with
       | some (sp, r2) => sepTail fuel r2 (sp :: acc)
       | none => (acc.reverse, s))
    | _ => (acc.reverse, s)

/-- Mirrors `parse::take_reading_spans`
(`separated_list0(char(';'), take_reading_span)`), which never fails: an
unparseable first element yields the empty list. -/
def take_reading_spans (s : Str) : List ParseReadingSpan × Str :=
  match take_reading_span s with
  | none => ([], s)
  | some (sp, r) => sepTail (s.length + 1) r [sp]

/-- Mirrors `parse::dictionary_line`: `text|reading|span-list`, returning the
remaining input (discarded by the caller in `build`) and the entry. -/
def dictionary_line (input : Str) : Option (Str × ParseTextEntry) :=
  (takeUntilBar input).bind fun t1 =>
  (charP '|' t1.2).bind fun r2 =>
  (takeUntilBar r2).bind fun t2 =>
  (charP '|' t2.2).bind fun r4 =>
  some ((take_reading_spans r4).2, ⟨t1.1, t2.1, (take_reading_spans r4).1⟩)

/-! ### `dictionary::build` -/

/-- Mirrors `BuildError` (dictionary.rs).  The `Io` variant wraps reader
failures, which do not arise in this embedding because the input is a pure
list of already-read lines. -/
inductive BuildError where
  | io
  | parse (line : Str)
deriving DecidableEq

/-- Insertion into the ordered association list modelling
`BTreeMap::insert`: the value of an existing key is replaced. -/
def insertSorted (key : Index) (v : TextEntry) :
    List (Index × TextEntry) → List (Index × TextEntry)
  | [] => [(key, v)]
  | kv :: rest =>
    if Index.lt key kv.1 then (key, v) :: kv :: rest
    else if key = kv.1 then (key, v) :: rest
    else kv :: insertSorted key v rest

/-- The `TextEntry` built from one parsed dictionary line (dictionary.rs
lines 145–154): frequency flags start out `false`. -/
def entryOfParsed (entry : ParseTextEntry) : TextEntry :=
  { text := entry.text, text_is_common := false, reading := entry.reading,
    reading_is_common := false,
    reading_spans := entry.reading_spans.map
      (fun sp => ⟨sp.start_index, sp.end_index, sp.text⟩) }

/-- Mirrors the `try_fold` of `dictionary::build`: each line is parsed and
inserted under the key `(text, reading)`; the first unparseable line aborts
the whole build with a `Parse` error carrying that line. -/
def buildTree : List Str → List (Index × TextEntry) →
    Except BuildError (List (Index × TextEntry))
  | [], tree => .ok tree
  | line :: rest, tree =>
    match dictionary_line line with
    | none => .error (.parse line)
    | some pr =>
      buildTree rest (insertSorted ⟨pr.2.text, pr.2.reading⟩ (entryOfParsed pr.2) tree)

/-- Mirrors the frequency pass of `dictionary::build`: for each corpus entry,
the tree entry keyed by `(kanji_element, reading_element)`, if any, gets its
two common flags overwritten. -/
def applyFrequency (freq : List FrequencyEntry)
    (tree : List (Index × TextEntry)) : List (Index × TextEntry) :=
  freq.foldl
    (fun t f => t.map (fun kv =>
      if kv.1 = (⟨f.kanji_element, f.reading_element⟩ : Index) then
        (kv.1, { kv.2 with
                  reading_is_common := f.reading_common,
                  text_is_common := f.kanji_common })
      else kv))
    tree

/-- Mirrors `dictionary::build`, with the external jmdict frequency corpus as
a parameter. -/
def build (lines : List Str) (freq : List FrequencyEntry) :
    Except BuildError Dictionary :=
  (buildTree lines []).map (fun tree => ⟨applyFrequency freq tree⟩)

/-! ### `select.rs`: the `FirstOccurrence` selection policy -/

/-- Mirrors `FirstOccurrence::select` (select.rs lines 70–79): the `HashSet`
of already-seen fragment surface texts is modelled as a list with set
membership; `insert` reports whether the text was newly inserted, and only
then is the inner selector consulted.  The lock makes check-and-insert plus
delegation atomic; the embedding is the sequential semantics that atomicity
guarantees. -/
def FirstOccurrence.select (inner : AnnotatedTextFragment → Option TextEntry)
    (seen : List Str) (fragment : AnnotatedTextFragment) :
    Option TextEntry × List Str :=
  if seen.contains fragment.text then (none, seen)
  else (inner fragment, fragment.text :: seen)

/-- A sequence of `select` calls on one `FirstOccurrence` selector, returning
the selection made for each fragment in order. -/
def FirstOccurrence.run (inner : AnnotatedTextFragment → Option TextEntry) :
    List AnnotatedTextFragment → List Str → List (Option TextEntry)
  | [], _ => []
  | f :: fs, seen =>
    (FirstOccurrence.select inner seen f).1 ::
      FirstOccurrence.run inner fs (FirstOccurrence.select inner seen f).2

/-! ### Spec-side definitions for refinement claims -/

/-- Whether the text entry for `(K, reading)` is flagged text-common in the
database (first matching row, `false` when absent). -/
def entryTextCommon (db : Db) (k reading : Str) : Bool :=
  ((db.text_entries.find? (fun te => te.text = k ∧ te.reading = reading)).map
    (fun te => te.text_common)).getD false

/-- Whether the text entry for `(K, reading)` is flagged reading-common in
the database (first matching row, `false` when absent). -/
def entryReadingCommon (db : Db) (k reading : Str) : Bool :=
  ((db.text_entries.find? (fun te => te.text = k ∧ te.reading = reading)).map
    (fun te => te.reading_common)).getD false

/-- Modelled from the spec (section 4.3, Candidate Ranker), as quoted by
claim C4: fetch the exact-lookup result for K; when skip-common is active
drop entries flagged text-common; stable-sort the remainder by the descending
priority tuple (reading equals H exactly) > (reading flagged common), ties
preserving input order.  A stable sort by a two-boolean descending key is the
concatenation of the four key buckets in descending key order. -/
def specRankCandidates (db : Db) (avoid_common : Bool) (k : Str)
    (h : Option Str) : List Annotation :=
  let base := find_annotations_for_word db k
  let kept :=
    if avoid_common then base.filter (fun a => !entryTextCommon db k a.reading)
    else base
  let matchesHint : Annotation → Bool := fun a => h = some a.reading
  let common : Annotation → Bool := fun a => entryReadingCommon db k a.reading
  (kept.filter (fun a => matchesHint a && common a)) ++
    (kept.filter (fun a => matchesHint a && !common a)) ++
    (kept.filter (fun a => !matchesHint a && common a)) ++
    (kept.filter (fun a => !matchesHint a && !common a))

/-! ### Concrete instances used in counterexamples and witnesses -/

/-- Empty database. -/
def dbEmpty : Db := ⟨[], []⟩

/-- Database whose only text entry is the common verb 言う (containing the
lemma of the surface token 言われ). -/
def dbCommonVerb : Db :=
  ⟨[⟨1, strOf "言う", strOf "いう", true, true⟩],
   [⟨1, 0, 0, strOf "い"⟩]⟩

/-- Token 言われ with the 9-element IPADIC detail record giving lemma 言う. -/
def tokenIware : Token :=
  ⟨strOf "言われ",
   some [strOf "動詞", strOf "自立", strOf "*", strOf "*", strOf "一段",
     strOf "未然形", strOf "言う", strOf "イワレ", strOf "イワレ"]⟩

/-- Database with one two-character entry あい, used to exercise a merged
(two-token) window in the segmenter. -/
def dbMerge : Db :=
  ⟨[⟨1, strOf "あい", strOf "あい", false, false⟩],
   [⟨1, 0, 1, strOf "あい"⟩]⟩

/-- Two single-character tokens あ and い with no detail records. -/
def tokensMerge : List Token :=
  [⟨strOf "あ", none⟩, ⟨strOf "い", none⟩]

/-- Database for the C4 ranking counterexample: two entries for the text k
whose readings both differ from the hint; the second reading is flagged
common, the first is not. -/
def dbRank : Db :=
  ⟨[⟨1, strOf "k", strOf "r1", false, false⟩,
    ⟨2, strOf "k", strOf "r2", false, true⟩],
   [⟨1, 0, 0, strOf "r1"⟩, ⟨2, 0, 0, strOf "r2"⟩]⟩

/-- Database for the C4 skip-common counterexample: two entries for the text
k; the first is flagged text-common, the second is not. -/
def dbSkip : Db :=
  ⟨[⟨1, strOf "k", strOf "r1", true, false⟩,
    ⟨2, strOf "k", strOf "r2", false, false⟩],
   [⟨1, 0, 0, strOf "r1"⟩, ⟨2, 0, 0, strOf "r2"⟩]⟩

/-- An arbitrary concrete text entry for witnesses about selectors. -/
def entryW : TextEntry := ⟨strOf "k", false, strOf "r", false, []⟩

/-- Raw dictionary lines used by the C6/C7 witnesses. -/
def dictLines : List Str :=
  [strOf "あい|アイ|0-1:あい", strOf "か|カ|0:か"]

/-- The dictionary that `build dictLines []` evaluates to. -/
def dictW : Dictionary :=
  ⟨[(⟨strOf "あい", strOf "アイ"⟩,
     ⟨strOf "あい", false, strOf "アイ", false, [⟨0, 1, strOf "あい"⟩]⟩),
    (⟨strOf "か", strOf "カ"⟩,
     ⟨strOf "か", false, strOf "カ", false, [⟨0, 0, strOf "か"⟩]⟩)]⟩

/-! ## Theorems -/

/-! ### C5: the FirstOccurrence selection policy -/

/-- Behaviour of a run of `FirstOccurrence::select` calls from an arbitrary
seen-set: call `i` defers to the inner selector exactly when the fragment's
surface text is neither in the initial seen-set nor among the surface texts
of the fragments presented earlier in the run. -/
lemma firstOccurrence_run_get (inner : AnnotatedTextFragment → Option TextEntry) :
    ∀ (frags : List AnnotatedTextFragment) (seen : List Str) (i : Nat)
      (h : i < frags.length),
    (FirstOccurrence.run inner frags seen)[i]? =
      some (if frags[i].text ∈ seen ++ (frags.take i).map (fun g => g.text)
            then none else inner frags[i])
  | f :: fs, seen, 0, _ => by
    by_cases hc : f.text ∈ seen
    · have hcb : seen.contains f.text = true := by simpa using hc
      simp [FirstOccurrence.run, FirstOccurrence.select, hcb, hc]
    · have hcb : seen.contains f.text = false := by simpa using hc
      simp [FirstOccurrence.run, FirstOccurrence.select, hcb, hc]
  | f :: fs, seen, i + 1, h => by
    have hlen : i < fs.length := by simpa using h
    have ih := firstOccurrence_run_get inner fs
      (FirstOccurrence.select inner seen f).2 i hlen
    have hmem : (fs[i].text ∈ (FirstOccurrence.select inner seen f).2 ++
          (fs.take i).map (fun g => g.text)) ↔
        fs[i].text ∈ seen ++ f.text :: (fs.take i).map (fun g => g.text) := by
      by_cases hc : f.text ∈ seen
      · have hcb : seen.contains f.text = true := by simpa using hc
        rw [show (FirstOccurrence.select inner seen f).2 = seen from by
          simp [FirstOccurrence.select, hc]]
        constructor
        · intro hx
          rcases List.mem_append.mp hx with hx | hx
          · exact List.mem_append.mpr (Or.inl hx)
          · exact List.mem_append.mpr (Or.inr (List.mem_cons_of_mem _ hx))
        · intro hx
          rcases List.mem_append.mp hx with hx | hx
          · exact List.mem_append.mpr (Or.inl hx)
          · rcases List.mem_cons.mp hx with hx | hx
            · exact List.mem_append.mpr (Or.inl (hx ▸ hc))
            · exact List.mem_append.mpr (Or.inr hx)
      · have hcb : seen.contains f.text = false := by simpa using hc
        rw [show (FirstOccurrence.select inner seen f).2 = f.text :: seen from by
          simp [FirstOccurrence.select, hc]]
        exact List.perm_middle.symm.mem_iff
    show (FirstOccurrence.run inner (f :: fs) seen)[i + 1]? = _
    rw [show FirstOccurrence.run inner (f :: fs) seen =
      (FirstOccurrence.select inner seen f).1 ::
        FirstOccurrence.run inner fs (FirstOccurrence.select inner seen f).2 from rfl]
    rw [List.getElem?_cons_succ, ih]
    refine congrArg some ?_
    refine if_congr ?_ rfl rfl
    simpa using hmem

/-- C5 — confirmed.  For every inner selector and every sequence of `select`
calls on one `FirstOccurrence` selector (started from the empty seen-set),
the call at position `i` returns exactly what the inner selector returns for
that fragment when no earlier call presented the same surface text, and
returns `none` whenever some earlier call presented a fragment with the
identical surface text, regardless of the inner selector. -/
theorem C5_first_occurrence_policy (inner : AnnotatedTextFragment → Option TextEntry)
    (frags : List AnnotatedTextFragment) (i : Nat) (h : i < frags.length) :
    (FirstOccurrence.run inner frags [])[i]? =
      some (if frags[i].text ∈ (frags.take i).map (fun g => g.text)
            then none else inner frags[i]) := by
  have := firstOccurrence_run_get inner frags [] i h
  simpa using this

/-- Witness for C5: with an inner selector that always chooses `entryW`, on
two fragments with the same surface text the first call returns the inner
choice and the second returns `none`. -/
theorem C5_witness :
    (FirstOccurrence.run (fun _ => some entryW)
        [⟨strOf "k", []⟩, ⟨strOf "k", []⟩] [])[0]? = some (some entryW) ∧
    (FirstOccurrence.run (fun _ => some entryW)
        [⟨strOf "k", []⟩, ⟨strOf "k", []⟩] [])[1]? = some none := by
  constructor
  · have := C5_first_occurrence_policy (fun _ => some entryW)
      [⟨strOf "k", []⟩, ⟨strOf "k", []⟩] 0 (by decide)
    rw [this]
    rfl
  · have := C5_first_occurrence_policy (fun _ => some entryW)
      [⟨strOf "k", []⟩, ⟨strOf "k", []⟩] 1 (by decide)
    rw [this]
    rfl

/-! ### Lemmas about the renderer fold of `Annotation::apply` -/

/-- A slice ending at the text's length is the drop. -/
lemma sliceAt_to_end (text : Str) (a : Nat) :
    sliceAt text a text.length = text.drop a := by
  unfold sliceAt
  apply List.take_of_length_le
  simp

/-- A failed accumulator propagates through the fold. -/
lemma applyFold_none (text : Str) (format : Str → Str → Str) :
    ∀ spans : List AnnotationSpan,
      spans.foldl (applyStep text format) none = none := by
  intro spans
  induction spans with
  | nil => rfl
  | cons sp rest ih =>
    rw [List.foldl_cons, show applyStep text format none sp = none from rfl, ih]

/-- Success characterization of the fold of `Annotation::apply`: a successful
fold ends at the next-valid index computed by `applyPiecesAux`, its output is
the rendering of the emitted pieces, and the pieces advance monotonically. -/
lemma applyFold_some (text : Str) (format : Str → Str → Str) :
    ∀ (spans : List AnnotationSpan) (vi : Nat) (s : Str) (r : Nat × Str),
    spans.foldl (applyStep text format) (some (vi, s)) = some r →
    r.1 = (applyPiecesAux spans vi).2 ∧
    r.2 = s ++ (((applyPiecesAux spans vi).1).map (renderPiece text format)).flatten ∧
    piecesBounded vi (applyPiecesAux spans vi).1 r.1 = true := by
  intro spans
  induction spans with
  | nil =>
    intro vi s r h
    simp only [List.foldl_nil, Option.some.injEq] at h
    subst h
    refine ⟨rfl, by simp [applyPiecesAux], by simp [applyPiecesAux, piecesBounded]⟩
  | cons span rest ih =>
    intro vi s r h
    rw [List.foldl_cons] at h
    by_cases hacc : vi ≤ span.start_index
    · by_cases hc1 : span.start_index ≤ text.length
      · by_cases hc2 : span.start_index ≤ span.end_index + 1 ∧
            span.end_index + 1 ≤ text.length
        · have hstep : applyStep text format (some (vi, s)) span =
              some (span.end_index + 1,
                s ++ sliceAt text vi span.start_index ++
                  format (sliceAt text span.start_index (span.end_index + 1))
                    span.text) := by
            simp [applyStep, hacc, sliceChecked, hc1, hc2.1, hc2.2]
          rw [hstep] at h
          obtain ⟨h1, h2, h3⟩ := ih (span.end_index + 1) _ r h
          refine ⟨?_, ?_, ?_⟩
          · simpa [applyPiecesAux, hacc] using h1
          · rw [h2]
            simp [applyPiecesAux, hacc, renderPiece, List.append_assoc]
          · simp only [applyPiecesAux, hacc, if_pos]
            simp only [piecesBounded, pieceLo, pieceHi, Bool.and_eq_true,
              decide_eq_true_eq]
            exact ⟨⟨le_refl _, hacc⟩, ⟨le_refl _, hc2.1⟩, h3⟩
        · have hstep : applyStep text format (some (vi, s)) span = none := by
            rcases Decidable.not_and_iff_or_not.mp hc2 with hx | hx <;>
              simp [applyStep, hacc, sliceChecked, hc1, hx]
          rw [hstep, applyFold_none] at h
          exact absurd h (by simp)
      · have hstep : applyStep text format (some (vi, s)) span = none := by
          simp [applyStep, hacc, sliceChecked, hc1]
        rw [hstep, applyFold_none] at h
        exact absurd h (by simp)
    · have hstep : applyStep text format (some (vi, s)) span = some (vi, s) := by
        simp [applyStep, hacc]
      rw [hstep] at h
      obtain ⟨h1, h2, h3⟩ := ih vi s r h
      exact ⟨by simpa [applyPiecesAux, hacc] using h1,
        by simpa [applyPiecesAux, hacc] using h2,
        by simpa [applyPiecesAux, hacc] using h3⟩

/-- Every span accepted by the fold is one of the annotation's spans. -/
lemma acceptedSpans_subset :
    ∀ (spans : List AnnotationSpan) (vi : Nat) (sp : AnnotationSpan),
      sp ∈ acceptedSpans spans vi → sp ∈ spans := by
  intro spans
  induction spans with
  | nil => intro vi sp h; simp [acceptedSpans] at h
  | cons span rest ih =>
    intro vi sp h
    by_cases hacc : vi ≤ span.start_index
    · simp only [acceptedSpans, if_pos hacc, List.mem_cons] at h
      rcases h with h | h
      · simp [h]
      · exact List.mem_cons_of_mem _ (ih _ _ h)
    · simp only [acceptedSpans, if_neg hacc] at h
      exact List.mem_cons_of_mem _ (ih _ _ h)

/-- The fold of `Annotation::apply` succeeds whenever every accepted span is
within the character bounds of the text. -/
lemma applyFold_isSome (text : Str) (format : Str → Str → Str) :
    ∀ (spans : List AnnotationSpan) (vi : Nat) (s : Str),
    vi ≤ text.length →
    (∀ sp ∈ acceptedSpans spans vi,
      sp.start_index ≤ sp.end_index ∧ sp.end_index < text.length) →
    ∃ r : Nat × Str,
      spans.foldl (applyStep text format) (some (vi, s)) = some r ∧
        r.1 ≤ text.length := by
  intro spans
  induction spans with
  | nil => intro vi s hvi _; exact ⟨(vi, s), rfl, hvi⟩
  | cons span rest ih =>
    intro vi s hvi hb
    by_cases hacc : vi ≤ span.start_index
    · have hsp := hb span (by simp [acceptedSpans, hacc])
      have hstep : applyStep text format (some (vi, s)) span =
          some (span.end_index + 1,
            s ++ sliceAt text vi span.start_index ++
              format (sliceAt text span.start_index (span.end_index + 1))
                span.text) := by
        have hx1 : span.start_index ≤ text.length := by omega
        have hx2 : span.start_index ≤ span.end_index + 1 := by omega
        have hx3 : span.end_index + 1 ≤ text.length := by omega
        simp [applyStep, hacc, sliceChecked, hx1, hx2, hx3]
      rw [List.foldl_cons, hstep]
      refine ih (span.end_index + 1) _ (by omega) ?_
      intro sp hsp2
      have hmem : sp ∈ acceptedSpans (span :: rest) vi := by
        simp only [acceptedSpans, if_pos hacc, List.mem_cons]
        exact Or.inr hsp2
      exact hb sp hmem
    · have hstep : applyStep text format (some (vi, s)) span = some (vi, s) := by
        simp [applyStep, hacc]
      rw [List.foldl_cons, hstep]
      refine ih vi s hvi ?_
      intro sp hsp2
      have hmem : sp ∈ acceptedSpans (span :: rest) vi := by
        simpa [acceptedSpans, hacc] using hsp2
      exact hb sp hmem

/-- The spec-side renderer description coincides with the rendering of the
emitted pieces followed by the untouched tail. -/
lemma specApply_eq_pieces (text : Str) (format : Str → Str → Str) :
    ∀ (spans : List AnnotationSpan) (vi : Nat),
    specApply text format vi spans =
      (((applyPiecesAux spans vi).1).map (renderPiece text format)).flatten ++
        text.drop (applyPiecesAux spans vi).2 := by
  intro spans
  induction spans with
  | nil => intro vi; simp [specApply, applyPiecesAux]
  | cons span rest ih =>
    intro vi
    by_cases hacc : vi ≤ span.start_index
    · simp [specApply, applyPiecesAux, hacc, ih, renderPiece, List.append_assoc]
    · simp [specApply, applyPiecesAux, hacc, ih]

/-- Pieces validated by `piecesBounded` start at or after the initial
next-valid index and have non-collapsing ranges. -/
lemma piecesBounded_mono :
    ∀ (ps : List ApplyPiece) (vi last : Nat), piecesBounded vi ps last = true →
      ∀ p ∈ ps, vi ≤ pieceLo p ∧ pieceLo p ≤ pieceHi p := by
  intro ps
  induction ps with
  | nil => intro vi last _ p hp; simp at hp
  | cons q qs ih =>
    intro vi last h p hp
    simp only [piecesBounded, Bool.and_eq_true, decide_eq_true_eq] at h
    rcases List.mem_cons.mp hp with hp | hp
    · subst hp; exact ⟨h.1.1, h.1.2⟩
    · have := ih (pieceHi q) last h.2 p hp
      exact ⟨le_trans (le_trans h.1.1 h.1.2) this.1, this.2⟩

/-- Appending the untouched tail piece preserves the bounded-chain check. -/
lemma piecesBounded_append_one :
    ∀ (ps : List ApplyPiece) (vi last len : Nat),
      piecesBounded vi ps last = true → last ≤ len →
      piecesBounded vi (ps ++ [.untouched last len]) len = true := by
  intro ps
  induction ps with
  | nil =>
    intro vi last len h hle
    simp only [piecesBounded, decide_eq_true_eq] at h
    simp only [List.nil_append, piecesBounded, pieceLo, pieceHi,
      Bool.and_eq_true, decide_eq_true_eq]
    exact ⟨⟨h, hle⟩, le_refl _⟩
  | cons q qs ih =>
    intro vi last len h hle
    simp only [piecesBounded, Bool.and_eq_true, decide_eq_true_eq] at h
    simp only [List.cons_append, piecesBounded, Bool.and_eq_true,
      decide_eq_true_eq]
    exact ⟨⟨h.1.1, h.1.2⟩, ih _ _ _ h.2 hle⟩

/-- In a bounded chain of pieces, any source position is inside at most one
piece's range. -/
lemma piecesBounded_count :
    ∀ (ps : List ApplyPiece) (vi last : Nat), piecesBounded vi ps last = true →
      ∀ pos : Nat,
        (ps.filter (fun p => decide (pieceLo p ≤ pos) &&
          decide (pos < pieceHi p))).length ≤ 1 := by
  intro ps
  induction ps with
  | nil => intro vi last _ pos; simp
  | cons q qs ih =>
    intro vi last h pos
    simp only [piecesBounded, Bool.and_eq_true, decide_eq_true_eq] at h
    by_cases hq : pieceLo q ≤ pos ∧ pos < pieceHi q
    · have hrest : (qs.filter (fun p => decide (pieceLo p ≤ pos) &&
          decide (pos < pieceHi p))) = [] := by
        apply List.filter_eq_nil_iff.mpr
        intro p hp
        have hmono := (piecesBounded_mono qs (pieceHi q) last h.2 p hp).1
        simp only [Bool.and_eq_true, decide_eq_true_eq]
        intro hcontra
        omega
      have hpos : (decide (pieceLo q ≤ pos) && decide (pos < pieceHi q)) = true := by
        simp [hq.1, hq.2]
      simp only [List.filter_cons, hpos, if_true, hrest]
      simp
    · have hneg : (decide (pieceLo q ≤ pos) && decide (pos < pieceHi q)) = false := by
        rw [Bool.eq_false_iff]
        intro hcon
        simp only [Bool.and_eq_true, decide_eq_true_eq] at hcon
        exact hq hcon
      simp only [List.filter_cons, hneg, if_false]
      exact ih _ _ h.2 pos

/-! ### C3: the renderer's output description -/

/-- C3 — counterexample to the claim as stated.  With the sorted
single-element span list `[(0, 1, "x")]` over the one-character text あ, the
span's `end_index` is out of bounds and `Annotation::apply` reaches an
out-of-bounds slice (a panic in Rust, `none` here) instead of producing the
output the claim describes (which `specApply` computes as あx). -/
theorem C3_counterexample :
    Annotation.apply ⟨strOf "x", [⟨0, 1, strOf "x"⟩]⟩ (strOf "あ")
        (fun b t => b ++ t) = none ∧
    specApply (strOf "あ") (fun b t => b ++ t) 0 [⟨0, 1, strOf "x"⟩] =
      strOf "あx" := by
  exact ⟨rfl, rfl⟩

/-- C3 — amended: additionally assuming every span is within the character
bounds of the fragment text (`start ≤ end < length`), `Annotation::apply`
produces exactly the output described by the claim: for each span with
`start_index` at least the next-valid index, the untouched slice up to the
span's start, then `format(base, reading)` with `base` the inclusive
character slice of the span, with the next-valid index advancing to
`end_index + 1`; spans starting before the next-valid index contribute
nothing; after the last span the remaining tail is appended unchanged. -/
theorem C3_renderer_description (ann : Annotation) (text : Str)
    (format : Str → Str → Str)
    (hb : ∀ sp ∈ ann.spans,
      sp.start_index ≤ sp.end_index ∧ sp.end_index < text.length) :
    ann.apply text format = some (specApply text format 0 ann.spans) := by
  have hball : ∀ sp ∈ acceptedSpans ann.spans 0,
      sp.start_index ≤ sp.end_index ∧ sp.end_index < text.length :=
    fun sp h => hb sp (acceptedSpans_subset ann.spans 0 sp h)
  obtain ⟨r, hr, hrle⟩ :=
    applyFold_isSome text format ann.spans 0 [] (Nat.zero_le _) hball
  obtain ⟨h1, h2, _⟩ := applyFold_some text format ann.spans 0 [] r hr
  unfold Annotation.apply
  rw [hr]
  have htail : sliceChecked text r.1 text.length =
      some (text.drop r.1) := by
    rw [sliceChecked, if_pos ⟨hrle, le_refl _⟩, sliceAt_to_end]
  simp only [Option.some_bind, htail, Option.map_some', Option.some.injEq]
  rw [h2, specApply_eq_pieces, ← h1]
  simp

/-- Witness for C3 (amended): a two-span annotation over ありがとう renders
to the described interleaving of untouched slices and formatted bases. -/
theorem C3_witness :
    Annotation.apply ⟨strOf "x", [⟨0, 0, strOf "a"⟩, ⟨2, 3, strOf "b"⟩]⟩
        (strOf "ありがとう") (fun b t => b ++ t) =
      some (specApply (strOf "ありがとう") (fun b t => b ++ t) 0
        [⟨0, 0, strOf "a"⟩, ⟨2, 3, strOf "b"⟩]) := by
  exact C3_renderer_description ⟨strOf "x", [⟨0, 0, strOf "a"⟩, ⟨2, 3, strOf "b"⟩]⟩
    (strOf "ありがとう") (fun b t => b ++ t) (by decide)

/-! ### C9: bounds safety of `Annotation::apply` -/

/-- C9 — confirmed.  `Annotation::apply` indexes the fragment's character
vector without bounds checks; under the precondition that every span it
accepts satisfies `start_index ≤ end_index < character count`, every slice
taken is in bounds and the embedding's out-of-bounds branch (`none`) is
unreachable.  The precondition is necessary: for the span `(0, 1)` over the
one-character text い — whose `end_index` equals the character count —
evaluation reaches an out-of-bounds index. -/
theorem C9_apply_bounds_safety :
    (∀ (ann : Annotation) (text : Str) (format : Str → Str → Str),
      (∀ sp ∈ acceptedSpans ann.spans 0,
        sp.start_index ≤ sp.end_index ∧ sp.end_index < text.length) →
      (ann.apply text format).isSome) ∧
    Annotation.apply ⟨strOf "y", [⟨0, 1, strOf "y"⟩]⟩ (strOf "い")
      (fun b t => b ++ t) = none := by
  constructor
  · intro ann text format hb
    obtain ⟨r, hr, hrle⟩ :=
      applyFold_isSome text format ann.spans 0 [] (Nat.zero_le _) hb
    unfold Annotation.apply
    rw [hr]
    simp [sliceChecked, hrle]
  · rfl

/-- Witness for C9: the in-bounds span `(0, 0)` over あ renders successfully. -/
theorem C9_witness :
    ((⟨strOf "r", [⟨0, 0, strOf "r"⟩]⟩ : Annotation).apply (strOf "あ")
      (fun b t => b ++ t)).isSome := by
  exact C9_apply_bounds_safety.1 ⟨strOf "r", [⟨0, 0, strOf "r"⟩]⟩ (strOf "あ")
    (fun b t => b ++ t) (by decide)

/-! ### C8: no source position is emitted twice -/

/-- C8 — confirmed.  For every fragment text and every span list — unsorted
or mutually overlapping included — whenever `Annotation::apply` produces an
output, that output is the rendering of the emitted pieces, whose source
ranges advance monotonically from 0 (the fold's next-valid index never
decreases and passes every emitted untouched and base slice), so each
character position of the source text lies in at most one emitted source
range outside of reading text. -/
theorem C8_no_double_emission (ann : Annotation) (text : Str)
    (format : Str → Str → Str) (out : Str)
    (h : ann.apply text format = some out) :
    out = ((applyPieces ann.spans text.length).map
      (renderPiece text format)).flatten ∧
    piecesBounded 0 (applyPieces ann.spans text.length) text.length = true ∧
    ∀ pos : Nat,
      ((applyPieces ann.spans text.length).filter
        (fun p => decide (pieceLo p ≤ pos) &&
          decide (pos < pieceHi p))).length ≤ 1 := by
  unfold Annotation.apply at h
  cases hf : ann.spans.foldl (applyStep text format) (some (0, [])) with
  | none => rw [hf] at h; simp at h
  | some r =>
    rw [hf] at h
    obtain ⟨h1, h2, h3⟩ := applyFold_some text format ann.spans 0 [] r hf
    simp only [Option.some_bind] at h
    cases hsc : sliceChecked text r.1 text.length with
    | none => rw [hsc] at h; simp at h
    | some tail =>
      rw [hsc] at h
      simp only [Option.map_some', Option.some.injEq] at h
      have hrle : r.1 ≤ text.length := by
        by_contra hcon
        rw [sliceChecked, if_neg (fun hx => hcon hx.1)] at hsc
        exact absurd hsc (by simp)
      have htl : tail = text.drop r.1 := by
        rw [sliceChecked, if_pos ⟨hrle, le_refl _⟩, sliceAt_to_end] at hsc
        exact (Option.some.inj hsc).symm
      have hbounded : piecesBounded 0 (applyPieces ann.spans text.length)
          text.length = true := by
        unfold applyPieces
        rw [← h1]
        exact piecesBounded_append_one _ _ _ _ h3 hrle
      refine ⟨?_, hbounded, ?_⟩
      · rw [← h, h2, htl]
        unfold applyPieces
        rw [← h1]
        simp [renderPiece, sliceAt_to_end]
      · intro pos
        exact piecesBounded_count _ _ _ hbounded pos

/-- Witness for C8: an annotation with overlapping, unsorted spans over
あいうえお still renders with each source position used at most once. -/
theorem C8_witness :
    (strOf "aあいうcえお" = ((applyPieces [⟨0, 1, strOf "a"⟩, ⟨0, 2, strOf "b"⟩,
        ⟨3, 4, strOf "c"⟩] (strOf "あいうえお").length).map
      (renderPiece (strOf "あいうえお") (fun b t => t ++ b))).flatten) ∧
    (∀ pos : Nat,
      ((applyPieces [⟨0, 1, strOf "a"⟩, ⟨0, 2, strOf "b"⟩, ⟨3, 4, strOf "c"⟩]
          (strOf "あいうえお").length).filter
        (fun p => decide (pieceLo p ≤ pos) &&
          decide (pos < pieceHi p))).length ≤ 1) := by
  have h := C8_no_double_emission
    ⟨strOf "x", [⟨0, 1, strOf "a"⟩, ⟨0, 2, strOf "b"⟩, ⟨3, 4, strOf "c"⟩]⟩
    (strOf "あいうえお") (fun b t => t ++ b) (strOf "aあいうcえお") (by rfl)
  exact ⟨h.1, h.2.2⟩

/-! ### C4: candidate ranking -/

/-- C4 — counterexample to the claim as stated, in both of its parts.
First part (ranking): with two candidates for k neither of whose readings
equals the hint h, where only the second reading is flagged common, the
spec-described ranking puts the common-reading candidate first, but the code
orders only by hint match and keeps input order, so the lists differ.
Second part (skip-common): with two entries for k of which only the first is
flagged text-common, the spec-described ranking drops just that entry and
keeps the other as a candidate, but the code consults only the first stored
row's flag and returns the fragment with no candidates at all. -/
theorem C4_counterexample :
    ((annotate_internal_token dbRank false
        ⟨strOf "k", strOf "k", some (strOf "h")⟩).annotations ≠
      specRankCandidates dbRank false (strOf "k") (some (strOf "h"))) ∧
    ((annotate_internal_token dbSkip true
        ⟨strOf "k", strOf "k", none⟩).annotations ≠
      specRankCandidates dbSkip true (strOf "k") none) := by
  exact ⟨by decide, by decide⟩

/-- C4 — amended.  For every fragment with lookup key K and optional reading
hint H, the candidate list the annotator attaches to the fragment is the
exact-lookup result for K stable-sorted by the single descending key
"reading equals H exactly" (hint matches first, then the rest, each preserving
input order); the reading-common flag plays no role in the ordering.  When
skip-common mode is active the fragment instead carries no candidates at all
exactly when the first stored text-entry row for K is flagged text-common
(individual entries are never dropped). -/
theorem C4_candidate_ranking (db : Db) (avoid : Bool) (tok : InternalToken) :
    (annotate_internal_token db avoid tok).annotations =
      if avoid && is_kanji_common db tok.lookup_text then []
      else
        match tok.reading_hint with
        | none => find_annotations_for_word db tok.lookup_text
        | some h =>
          (find_annotations_for_word db tok.lookup_text).filter
            (fun v => decide (v.reading = h)) ++
          (find_annotations_for_word db tok.lookup_text).filter
            (fun v => !decide (v.reading = h)) := by
  unfold annotate_internal_token
  by_cases hc : (avoid && is_kanji_common db tok.lookup_text) = true
  · simp [hc]
  · rw [if_neg hc, if_neg hc]
    cases tok.reading_hint with
    | none => rfl
    | some h =>
      simp only [List.partition_eq_filter_filter]
      rfl

/-! ### Order lemmas for the dictionary index -/

/-- Nothing is lexicographically below the empty string. -/
lemma strLt_nil_right : ∀ s : Str, strLt s [] = false := by
  intro s; cases s <;> rfl

/-- Unfolding of `strLt` on two nonempty strings. -/
lemma strLt_cons (a b : Char) (xs ys : Str) :
    strLt (a :: xs) (b :: ys) = true ↔
      a < b ∨ (a = b ∧ strLt xs ys = true) := by
  simp only [strLt]
  by_cases hab : a < b
  · simp [hab]
  · by_cases heq : a = b
    · simp [hab, heq]
    · simp [hab, heq]

/-- Lexicographic order is irreflexive. -/
lemma strLt_irrefl : ∀ s : Str, strLt s s = false
  | [] => rfl
  | c :: cs => by
    rw [Bool.eq_false_iff]
    intro h
    rcases (strLt_cons c c cs cs).mp h with h | ⟨_, h⟩
    · exact absurd h (lt_irrefl c)
    · exact absurd h (by simp [strLt_irrefl cs])

/-- Lexicographic order is transitive. -/
lemma strLt_trans : ∀ (a b c : Str), strLt a b = true → strLt b c = true →
    strLt a c = true
  | _, b, [] => by intro h1 h2; rw [strLt_nil_right b] at h2; cases h2
  | a, [], _ :: _ => by intro h1 h2; rw [strLt_nil_right a] at h1; cases h1
  | [], _ :: _, _ :: _ => by intro _ _; rfl
  | a :: xs, b :: ys, c :: zs => by
    intro h1 h2
    rw [strLt_cons] at h1 h2 ⊢
    rcases h1 with h1 | ⟨hab, h1⟩
    · rcases h2 with h2 | ⟨hbc, h2⟩
      · exact Or.inl (lt_trans h1 h2)
      · exact Or.inl (hbc ▸ h1)
    · rcases h2 with h2 | ⟨hbc, h2⟩
      · exact Or.inl (hab ▸ h2)
      · exact Or.inr ⟨hab.trans hbc, strLt_trans xs ys zs h1 h2⟩

/-- Lexicographic order is asymmetric. -/
lemma strLt_asymm (a b : Str) (h : strLt a b = true) : strLt b a = false := by
  rw [Bool.eq_false_iff]
  intro h2
  have := strLt_trans a b a h h2
  rw [strLt_irrefl a] at this
  cases this

/-- Two strings not below one another are equal (connexity). -/
lemma strLt_connex : ∀ a b : Str, strLt a b = false → a ≠ b → strLt b a = true
  | [], [] => by intro _ hne; exact absurd rfl hne
  | [], _ :: _ => by intro h _; cases h
  | _ :: _, [] => by intro _ _; rfl
  | a :: xs, b :: ys => by
    intro h hne
    have h' : ¬(a < b ∨ (a = b ∧ strLt xs ys = true)) := by
      rw [← strLt_cons a b xs ys, h]; simp
    rw [strLt_cons]
    by_cases heq : a = b
    · have hxy : strLt xs ys = false := by
        rw [Bool.eq_false_iff]
        intro hx
        exact h' (Or.inr ⟨heq, hx⟩)
      have hne2 : xs ≠ ys := fun he => hne (by rw [heq, he])
      exact Or.inr ⟨heq.symm, strLt_connex xs ys hxy hne2⟩
    · have hab : ¬ a < b := fun hx => h' (Or.inl hx)
      rcases lt_trichotomy a b with hx | hx | hx
      · exact absurd hx hab
      · exact absurd hx heq
      · exact Or.inl hx

/-- A prefix is never lexicographically above the whole string. -/
lemma isPrefixOf_not_strLt : ∀ p t : Str, p.isPrefixOf t = true →
    strLt t p = false
  | [], t => by intro _; exact strLt_nil_right t
  | a :: ps, [] => by intro h; cases h
  | a :: ps, b :: ts => by
    intro h
    simp only [List.isPrefixOf, Bool.and_eq_true, beq_iff_eq] at h
    rw [Bool.eq_false_iff]
    intro h2
    rcases (strLt_cons b a ts ps).mp h2 with h2 | ⟨hba, h2⟩
    · exact absurd (h.1 ▸ h2) (lt_irrefl _)
    · exact absurd (isPrefixOf_not_strLt ps ts h.2 ▸ h2) (by simp)

/-- Strings lexicographically between a prefix `p` and a string starting with
`p` themselves start with `p`. -/
lemma prefix_of_between : ∀ p s t : Str, strLt s p = false → strLt t s = false →
    p.isPrefixOf t = true → p.isPrefixOf s = true
  | [], s, _ => by intro _ _ _; cases s <;> rfl
  | _ :: _, [], _ => by intro h1 _ _; cases h1
  | _ :: _, _ :: _, [] => by intro _ _ h3; cases h3
  | a :: ps, b :: ss, c :: ts => by
    intro h1 h2 h3
    simp only [List.isPrefixOf, Bool.and_eq_true, beq_iff_eq] at h3
    have h1' : ¬(b < a ∨ (b = a ∧ strLt ss ps = true)) := by
      rw [← strLt_cons b a ss ps, h1]; simp
    have h2' : ¬(c < b ∨ (c = b ∧ strLt ts ss = true)) := by
      rw [← strLt_cons c b ts ss, h2]; simp
    have hba : ¬ b < a := fun hx => h1' (Or.inl hx)
    have hab : ¬ a < b := fun hx => h2' (Or.inl (h3.1 ▸ hx))
    have hae : a = b := le_antisymm (not_lt.mp hba) (not_lt.mp hab)
    have hsp : strLt ss ps = false := by
      rw [Bool.eq_false_iff]
      intro hx
      exact h1' (Or.inr ⟨hae.symm, hx⟩)
    have hts : strLt ts ss = false := by
      rw [Bool.eq_false_iff]
      intro hx
      exact h2' (Or.inr ⟨h3.1.symm.trans hae, hx⟩)
    simp only [List.isPrefixOf, Bool.and_eq_true, beq_iff_eq]
    exact ⟨hae, prefix_of_between ps ss ts hsp hts h3.2⟩

/-- Unfolding of the derived `Index` order. -/
lemma indexLt_iff (a b : Index) : Index.lt a b = true ↔
    strLt a.text b.text = true ∨
      (a.text = b.text ∧ strLt a.reading b.reading = true) := by
  unfold Index.lt
  by_cases h1 : strLt a.text b.text = true
  · simp [h1]
  · by_cases h2 : a.text = b.text
    · simp [h1, h2]
    · simp [h1, h2]

/-- The `Index` order is transitive. -/
lemma indexLt_trans (a b c : Index) (h1 : Index.lt a b = true)
    (h2 : Index.lt b c = true) : Index.lt a c = true := by
  rw [indexLt_iff] at h1 h2 ⊢
  rcases h1 with h1 | ⟨he1, h1⟩
  · rcases h2 with h2 | ⟨he2, h2⟩
    · exact Or.inl (strLt_trans _ _ _ h1 h2)
    · exact Or.inl (he2 ▸ h1)
  · rcases h2 with h2 | ⟨he2, h2⟩
    · exact Or.inl (he1 ▸ h2)
    · exact Or.inr ⟨he1.trans he2, strLt_trans _ _ _ h1 h2⟩

/-- The `Index` order is connex on distinct keys. -/
lemma indexLt_connex (a b : Index) (h : Index.lt a b = false) (hne : a ≠ b) :
    Index.lt b a = true := by
  have h' : ¬(strLt a.text b.text = true ∨
      (a.text = b.text ∧ strLt a.reading b.reading = true)) := by
    rw [← indexLt_iff, h]; simp
  have ht : strLt a.text b.text = false := by
    rw [Bool.eq_false_iff]; intro hx; exact h' (Or.inl hx)
  rw [indexLt_iff]
  by_cases he : a.text = b.text
  · have hr : strLt a.reading b.reading = false := by
      rw [Bool.eq_false_iff]; intro hx; exact h' (Or.inr ⟨he, hx⟩)
    have hrne : a.reading ≠ b.reading := by
      intro hx
      exact hne (by cases a; cases b; simp_all)
    exact Or.inr ⟨he.symm, strLt_connex _ _ hr hrne⟩
  · exact Or.inl (strLt_connex _ _ ht he)

/-- A key is never below the query key `(word, "")` when its text equals the
word, and a key below `(word, "")` has text strictly below the word. -/
lemma indexLt_fromText (k : Index) (w : Str) :
    Index.lt k (Index.fromText w) = true ↔ strLt k.text w = true := by
  rw [indexLt_iff]
  constructor
  · rintro (h | ⟨_, h⟩)
    · exact h
    · rw [show (Index.fromText w).reading = [] from rfl, strLt_nil_right] at h
      cases h
  · exact Or.inl

/-! ### Lemmas about `dictionary::build` -/

/-- Self-prefix. -/
lemma isPrefixOf_self : ∀ s : Str, s.isPrefixOf s = true := by
  intro s
  induction s with
  | nil => rfl
  | cons c cs ih => simp [List.isPrefixOf, ih]

/-- Membership after an ordered insertion. -/
lemma insertSorted_mem (key : Index) (v : TextEntry) :
    ∀ (l : List (Index × TextEntry)) (x : Index × TextEntry),
      x ∈ insertSorted key v l → x = (key, v) ∨ x ∈ l
  | [], x => by
    intro h
    simp only [insertSorted, List.mem_singleton] at h
    exact Or.inl h
  | kv :: rest, x => by
    intro h
    unfold insertSorted at h
    by_cases h1 : Index.lt key kv.1 = true
    · rw [if_pos h1] at h
      rcases List.mem_cons.mp h with h | h
      · exact Or.inl h
      · exact Or.inr h
    · rw [if_neg h1] at h
      by_cases h2 : key = kv.1
      · rw [if_pos h2] at h
        rcases List.mem_cons.mp h with h | h
        · exact Or.inl h
        · exact Or.inr (List.mem_cons_of_mem _ h)
      · rw [if_neg h2] at h
        rcases List.mem_cons.mp h with h | h
        · exact Or.inr (h ▸ List.mem_cons_self _ _)
        · rcases insertSorted_mem key v rest x h with h | h
          · exact Or.inl h
          · exact Or.inr (List.mem_cons_of_mem _ h)

/-- Ordered insertion preserves strict ascending key order. -/
lemma insertSorted_pairwise (key : Index) (v : TextEntry) :
    ∀ l : List (Index × TextEntry),
      l.Pairwise (fun x y => Index.lt x.1 y.1 = true) →
      (insertSorted key v l).Pairwise (fun x y => Index.lt x.1 y.1 = true)
  | [], _ => by simp [insertSorted]
  | kv :: rest, hp => by
    rw [List.pairwise_cons] at hp
    obtain ⟨hhead, htail⟩ := hp
    unfold insertSorted
    by_cases h1 : Index.lt key kv.1 = true
    · rw [if_pos h1, List.pairwise_cons]
      constructor
      · intro x hx
        rcases List.mem_cons.mp hx with h | h
        · exact h ▸ h1
        · exact indexLt_trans _ _ _ h1 (hhead x h)
      · rw [List.pairwise_cons]
        exact ⟨hhead, htail⟩
    · rw [if_neg h1]
      by_cases h2 : key = kv.1
      · rw [if_pos h2, List.pairwise_cons]
        refine ⟨?_, htail⟩
        intro x hx
        exact h2 ▸ hhead x hx
      · rw [if_neg h2, List.pairwise_cons]
        constructor
        · intro x hx
          rcases insertSorted_mem key v rest x hx with h | h
          · have hc := indexLt_connex key kv.1 (Bool.eq_false_iff.mpr h1) h2
            exact h ▸ hc
          · exact hhead x h
        · exact insertSorted_pairwise key v rest htail

/-- `buildTree` succeeds when every line parses. -/
lemma buildTree_ok : ∀ (lines : List Str) (tree : List (Index × TextEntry)),
    (∀ l ∈ lines, (dictionary_line l).isSome) →
    ∃ t, buildTree lines tree = .ok t
  | [], tree => fun _ => ⟨tree, rfl⟩
  | line :: rest, tree => by
    intro hp
    have h0 := hp line (List.mem_cons_self _ _)
    cases hdl : dictionary_line line with
    | none => rw [hdl] at h0; cases h0
    | some pr =>
      unfold buildTree
      rw [hdl]
      exact buildTree_ok rest _ (fun l hl => hp l (List.mem_cons_of_mem _ hl))

/-- `buildTree` reports the first unparseable line verbatim. -/
lemma buildTree_error (line : Str) (lines2 : List Str)
    (hbad : dictionary_line line = none) :
    ∀ (lines1 : List Str) (tree : List (Index × TextEntry)),
    (∀ l ∈ lines1, (dictionary_line l).isSome) →
    buildTree (lines1 ++ line :: lines2) tree = .error (.parse line)
  | [], tree => by
    intro _
    rw [List.nil_append]
    unfold buildTree
    rw [hbad]
  | l1 :: rest, tree => by
    intro hp
    have h0 := hp l1 (List.mem_cons_self _ _)
    cases hdl : dictionary_line l1 with
    | none => rw [hdl] at h0; cases h0
    | some pr =>
      rw [List.cons_append]
      unfold buildTree
      rw [hdl]
      exact buildTree_error line lines2 hbad rest _
        (fun l hl => hp l (List.mem_cons_of_mem _ hl))

/-- `buildTree` preserves sortedness and the key invariant. -/
lemma buildTree_props : ∀ (lines : List Str)
    (tree t : List (Index × TextEntry)),
    buildTree lines tree = .ok t →
    tree.Pairwise (fun x y => Index.lt x.1 y.1 = true) →
    (∀ kv ∈ tree, kv.1 = (⟨kv.2.text, kv.2.reading⟩ : Index)) →
    t.Pairwise (fun x y => Index.lt x.1 y.1 = true) ∧
      ∀ kv ∈ t, kv.1 = (⟨kv.2.text, kv.2.reading⟩ : Index)
  | [], tree, t => by
    intro h hp hk
    unfold buildTree at h
    cases h
    exact ⟨hp, hk⟩
  | line :: rest, tree, t => by
    intro h hp hk
    unfold buildTree at h
    cases hdl : dictionary_line line with
    | none => rw [hdl] at h; cases h
    | some pr =>
      rw [hdl] at h
      refine buildTree_props rest _ t h
        (insertSorted_pairwise _ _ tree hp) ?_
      intro kv hkv
      rcases insertSorted_mem _ _ tree kv hkv with hx | hx
      · rw [hx]
        rfl
      · exact hk kv hx

/-- The frequency pass changes neither keys nor entry texts/readings. -/
lemma applyFrequency_pres : ∀ (freq : List FrequencyEntry)
    (tree : List (Index × TextEntry)),
    (applyFrequency freq tree).map (fun kv => (kv.1, kv.2.text, kv.2.reading)) =
      tree.map (fun kv => (kv.1, kv.2.text, kv.2.reading))
  | [], tree => rfl
  | f :: fs, tree => by
    have hstep : applyFrequency (f :: fs) tree =
        applyFrequency fs (tree.map (fun kv =>
          if kv.1 = (⟨f.kanji_element, f.reading_element⟩ : Index) then
            (kv.1, { kv.2 with
                      reading_is_common := f.reading_common,
                      text_is_common := f.kanji_common })
          else kv)) := rfl
    rw [hstep, applyFrequency_pres fs, List.map_map]
    apply List.map_congr_left
    intro kv _
    by_cases hc : kv.1 = (⟨f.kanji_element, f.reading_element⟩ : Index)
    · simp [hc]
    · simp [hc]

/-- A successfully built dictionary has strictly ascending keys, and every
entry is stored under the key `(text, reading)`. -/
lemma build_entries_props (lines : List Str) (freq : List FrequencyEntry)
    (d : Dictionary) (h : build lines freq = .ok d) :
    d.entries.Pairwise (fun x y => Index.lt x.1 y.1 = true) ∧
      ∀ kv ∈ d.entries, kv.1 = (⟨kv.2.text, kv.2.reading⟩ : Index) := by
  unfold build at h
  cases hbt : buildTree lines [] with
  | error e => rw [hbt] at h; cases h
  | ok t =>
    rw [hbt] at h
    cases h
    obtain ⟨hp, hk⟩ := buildTree_props lines [] t hbt (by simp) (by simp)
    have hpres := applyFrequency_pres freq t
    constructor
    · have hp2 : (t.map (fun kv => (kv.1, kv.2.text, kv.2.reading))).Pairwise
          (fun x y => Index.lt x.1 y.1 = true) := by
        rw [List.pairwise_map]
        exact hp
      rw [← hpres, List.pairwise_map] at hp2
      exact hp2
    · intro kv hkv
      have hm : (kv.1, kv.2.text, kv.2.reading) ∈
          (applyFrequency freq t).map (fun kv => (kv.1, kv.2.text, kv.2.reading)) :=
        List.mem_map_of_mem _ hkv
      rw [hpres] at hm
      rcases List.mem_map.mp hm with ⟨kv0, hkv0, heq⟩
      have hk0 := hk kv0 hkv0
      have h1 : kv.1 = kv0.1 := by
        have := congrArg Prod.fst heq
        exact this.symm
      have h2 : kv.2.text = kv0.2.text := by
        have := congrArg (fun u => u.2.1) heq
        exact this.symm
      have h3 : kv.2.reading = kv0.2.reading := by
        have := congrArg (fun u => u.2.2) heq
        exact this.symm
      rw [h1, h2, h3]
      exact hk0

/-! ### Range-scan characterization of the dictionary lookups -/

/-- On a list with strictly ascending keys, dropping the keys below `lo` is
the same as filtering them out. -/
lemma sorted_dropWhile_filter (lo : Index) :
    ∀ l : List (Index × TextEntry),
      l.Pairwise (fun x y => Index.lt x.1 y.1 = true) →
      l.dropWhile (fun kv => Index.lt kv.1 lo) =
        l.filter (fun kv => !(Index.lt kv.1 lo))
  | [], _ => rfl
  | kv :: rest, hp => by
    rw [List.pairwise_cons] at hp
    by_cases h1 : Index.lt kv.1 lo = true
    · simp only [List.dropWhile_cons, List.filter_cons, h1, Bool.not_true,
        if_true, Bool.false_eq_true, if_false]
      exact sorted_dropWhile_filter lo rest hp.2
    · have h1' : Index.lt kv.1 lo = false := Bool.eq_false_iff.mpr h1
      simp only [List.dropWhile_cons, List.filter_cons, h1', Bool.not_false,
        if_true, Bool.false_eq_true, if_false]
      congr 1
      symm
      apply List.filter_eq_self.mpr
      intro x hx
      cases hxe : Index.lt x.1 lo with
      | false => simp
      | true =>
        have := indexLt_trans _ _ _ (hp.1 x hx) hxe
        rw [h1'] at this
        cases this

/-- On a list with strictly ascending keys and a predicate that, within the
list, never becomes true again after being false, the initial segment is the
whole filtered list. -/
lemma sorted_takeWhile_filter (pred : Index × TextEntry → Bool) :
    ∀ l : List (Index × TextEntry),
      l.Pairwise (fun x y => Index.lt x.1 y.1 = true) →
      (∀ x ∈ l, ∀ y ∈ l, Index.lt x.1 y.1 = true →
        pred x = false → pred y = false) →
      l.takeWhile pred = l.filter pred
  | [], _, _ => rfl
  | kv :: rest, hp, hH => by
    rw [List.pairwise_cons] at hp
    by_cases h1 : pred kv = true
    · simp only [List.takeWhile_cons, List.filter_cons, h1, if_true]
      congr 1
      exact sorted_takeWhile_filter pred rest hp.2
        (fun x hx y hy => hH x (List.mem_cons_of_mem _ hx) y
          (List.mem_cons_of_mem _ hy))
    · have h1' : pred kv = false := Bool.eq_false_iff.mpr h1
      simp only [List.takeWhile_cons, List.filter_cons, h1',
        Bool.false_eq_true, if_false]
      symm
      apply List.filter_eq_nil_iff.mpr
      intro y hy
      have := hH kv (List.mem_cons_self _ _) y (List.mem_cons_of_mem _ hy)
        (hp.1 y hy) h1'
      simp [this]

/-- The negated form of `indexLt_fromText`. -/
lemma indexLt_fromText_false (k : Index) (w : Str) :
    Index.lt k (Index.fromText w) = false ↔ strLt k.text w = false := by
  constructor
  · intro h
    rw [Bool.eq_false_iff]
    intro hx
    rw [(indexLt_fromText k w).mpr hx] at h
    cases h
  · intro h
    rw [Bool.eq_false_iff]
    intro hx
    rw [(indexLt_fromText k w).mp hx] at h
    cases h

/-- `lookup_word` returns exactly the stored entries whose text equals the
query, in storage order. -/
lemma lookup_word_eq_filter (d : Dictionary) (w : Str)
    (hp : d.entries.Pairwise (fun x y => Index.lt x.1 y.1 = true))
    (hk : ∀ kv ∈ d.entries, kv.1 = (⟨kv.2.text, kv.2.reading⟩ : Index)) :
    d.lookup_word w =
      (d.entries.filter (fun kv => kv.2.text = w)).map (fun kv => kv.2) := by
  unfold Dictionary.lookup_word
  rw [sorted_dropWhile_filter _ _ hp]
  rw [sorted_takeWhile_filter _ _ (hp.filter _) ?H]
  case H =>
    intro x hx y hy hlt hpx
    have hxlo : Index.lt x.1 (Index.fromText w) = false := by
      have := (List.mem_filter.mp hx).2
      cases hxe : Index.lt x.1 (Index.fromText w) with
      | false => rfl
      | true => rw [hxe] at this; cases this
    have hxw : strLt x.1.text w = false := (indexLt_fromText_false _ _).mp hxlo
    have hxne : x.1.text ≠ w := by
      intro hcontra
      rw [decide_eq_false_iff_not] at hpx
      exact hpx hcontra
    rw [decide_eq_false_iff_not]
    intro hyw
    rcases (indexLt_iff _ _).mp hlt with hl | ⟨hl, _⟩
    · have hwx : strLt w x.1.text = true := strLt_connex _ _ hxw hxne
      have : strLt w y.1.text = true := strLt_trans _ _ _ hwx hl
      rw [hyw, strLt_irrefl] at this
      cases this
    · exact hxne (hl.trans hyw)
  rw [List.filter_filter]
  rw [List.filter_congr ?Hc]
  case Hc =>
    intro kv hkv
    have hkey := hk kv hkv
    have htext : kv.1.text = kv.2.text := by rw [hkey]
    by_cases hw : kv.2.text = w
    · have h1 : decide (kv.1.text = w) = true := by
        rw [decide_eq_true_eq]
        rw [htext, hw]
      have h2 : Index.lt kv.1 (Index.fromText w) = false := by
        rw [indexLt_fromText_false, htext, hw, strLt_irrefl]
      rw [h1, h2]
      simp [hw]
    · have h1 : decide (kv.1.text = w) = false := by
        rw [decide_eq_false_iff_not]
        intro hcontra
        exact hw (htext ▸ hcontra)
      rw [h1]
      simp [hw]

/-- `lookup_prefixed` returns exactly the stored entries whose text starts
with the query, in storage order. -/
lemma lookup_prefixed_eq_filter (d : Dictionary) (p : Str)
    (hp : d.entries.Pairwise (fun x y => Index.lt x.1 y.1 = true))
    (hk : ∀ kv ∈ d.entries, kv.1 = (⟨kv.2.text, kv.2.reading⟩ : Index)) :
    d.lookup_prefixed p =
      (d.entries.filter (fun kv => p.isPrefixOf kv.2.text)).map
        (fun kv => kv.2) := by
  unfold Dictionary.lookup_prefixed
  rw [sorted_dropWhile_filter _ _ hp]
  rw [sorted_takeWhile_filter _ _ (hp.filter _) ?H]
  case H =>
    intro x hx y hy hlt hpx
    have hxlo : Index.lt x.1 (Index.fromText p) = false := by
      have := (List.mem_filter.mp hx).2
      cases hxe : Index.lt x.1 (Index.fromText p) with
      | false => rfl
      | true => rw [hxe] at this; cases this
    have hxp : strLt x.1.text p = false := (indexLt_fromText_false _ _).mp hxlo
    rw [Bool.eq_false_iff]
    intro hyp
    have hyx : strLt y.1.text x.1.text = false := by
      rcases (indexLt_iff _ _).mp hlt with hl | ⟨hl, _⟩
      · exact strLt_asymm _ _ hl
      · rw [hl, strLt_irrefl]
    have := prefix_of_between p x.1.text y.1.text hxp hyx hyp
    rw [hpx] at this
    cases this
  rw [List.filter_filter]
  rw [List.filter_congr ?Hc]
  case Hc =>
    intro kv hkv
    have hkey := hk kv hkv
    have htext : kv.1.text = kv.2.text := by rw [hkey]
    by_cases hw : p.isPrefixOf kv.2.text = true
    · have h1 : p.isPrefixOf kv.1.text = true := by rw [htext]; exact hw
      have h2 : Index.lt kv.1 (Index.fromText p) = false := by
        rw [indexLt_fromText_false]
        exact isPrefixOf_not_strLt _ _ h1
      rw [h1, h2, hw]
      rfl
    · have h1 : p.isPrefixOf kv.1.text = false := by
        rw [htext]
        exact Bool.eq_false_iff.mpr hw
      rw [h1, Bool.eq_false_iff.mpr hw]
      rfl

/-! ### C6: prefix lookup is exact-text filtering, and a superset of exact
lookup -/

/-- C6 — confirmed.  For every dictionary built by `build` and every
non-empty query string: `lookup_prefixed` yields exactly the stored entries
whose text starts with the query (including all exact matches),
`lookup_word` yields exactly the stored entries whose text equals the query
(empty when unknown), and consequently the entries returned by
`lookup_prefixed` are a superset of those returned by `lookup_word`. -/
theorem C6_prefix_superset (lines : List Str) (freq : List FrequencyEntry)
    (d : Dictionary) (p : Str) (hb : build lines freq = .ok d) (_hne : p ≠ []) :
    d.lookup_prefixed p =
      (d.entries.filter (fun kv => p.isPrefixOf kv.2.text)).map
        (fun kv => kv.2) ∧
    d.lookup_word p =
      (d.entries.filter (fun kv => kv.2.text = p)).map (fun kv => kv.2) ∧
    ∀ e ∈ d.lookup_word p, e ∈ d.lookup_prefixed p := by
  obtain ⟨hp, hk⟩ := build_entries_props lines freq d hb
  refine ⟨lookup_prefixed_eq_filter d p hp hk,
    lookup_word_eq_filter d p hp hk, ?_⟩
  intro e he
  rw [lookup_word_eq_filter d p hp hk] at he
  rw [lookup_prefixed_eq_filter d p hp hk]
  rcases List.mem_map.mp he with ⟨kv, hkv, hkv2⟩
  have hmem := List.mem_filter.mp hkv
  have htext : kv.2.text = p := by simpa using hmem.2
  refine List.mem_map.mpr ⟨kv, List.mem_filter.mpr ⟨hmem.1, ?_⟩, hkv2⟩
  rw [htext]
  exact isPrefixOf_self p

/-- Witness for C6: on the concrete two-entry dictionary built from
`dictLines`, the prefix lookup for あ returns exactly the あい entry, the
exact lookup for あ is empty, and the superset inclusion holds. -/
theorem C6_witness :
    build dictLines [] = .ok dictW ∧
    Dictionary.lookup_prefixed dictW (strOf "あ") =
      [⟨strOf "あい", false, strOf "アイ", false, [⟨0, 1, strOf "あい"⟩]⟩] ∧
    Dictionary.lookup_word dictW (strOf "あ") = [] ∧
    ∀ e ∈ Dictionary.lookup_word dictW (strOf "あ"),
      e ∈ Dictionary.lookup_prefixed dictW (strOf "あ") := by
  have h := C6_prefix_superset dictLines [] dictW (strOf "あ") (by rfl)
    (by decide)
  refine ⟨by rfl, ?_, ?_, h.2.2⟩
  · rw [h.1]
    decide
  · rw [h.2.1]
    decide

/-! ### C7: build aborts on the first unparseable line -/

/-- C7 — confirmed.  If every raw line parses as `text|reading|span-list`,
`build` returns a dictionary whose index is keyed by `(text, reading)`; if
some line fails to parse, `build` returns a `Parse` error carrying the first
offending line verbatim and no dictionary value at all (the `Except.error`
result carries no partially populated index). -/
theorem C7_build_abort :
    (∀ (lines : List Str) (freq : List FrequencyEntry),
      (∀ l ∈ lines, (dictionary_line l).isSome) →
      ∃ d, build lines freq = .ok d ∧
        ∀ kv ∈ d.entries, kv.1 = (⟨kv.2.text, kv.2.reading⟩ : Index)) ∧
    (∀ (lines1 : List Str) (line : Str) (lines2 : List Str)
        (freq : List FrequencyEntry),
      (∀ l ∈ lines1, (dictionary_line l).isSome) →
      dictionary_line line = none →
      build (lines1 ++ line :: lines2) freq = .error (.parse line)) := by
  constructor
  · intro lines freq hall
    obtain ⟨t, ht⟩ := buildTree_ok lines [] hall
    refine ⟨⟨applyFrequency freq t⟩, ?_, ?_⟩
    · unfold build
      rw [ht]
      rfl
    · intro kv hkv
      exact (build_entries_props lines freq ⟨applyFrequency freq t⟩
        (by unfold build; rw [ht]; rfl)).2 kv hkv
  · intro lines1 line lines2 freq hall hbad
    unfold build
    rw [buildTree_error line lines2 hbad lines1 [] hall]
    rfl

/-- Witness for C7: the single well-formed line builds successfully with the
`(text, reading)` key invariant, and appending the bar-free line `bad` after
it aborts the whole build with a parse error carrying that line. -/
theorem C7_witness :
    (∃ d, build [strOf "か|カ|0:か"] [] = .ok d ∧
      ∀ kv ∈ d.entries, kv.1 = (⟨kv.2.text, kv.2.reading⟩ : Index)) ∧
    build [strOf "か|カ|0:か", strOf "bad"] [] =
      .error (.parse (strOf "bad")) := by
  constructor
  · exact C7_build_abort.1 [strOf "か|カ|0:か"] [] (by decide)
  · exact C7_build_abort.2 [strOf "か|カ|0:か"] (strOf "bad") [] []
      (by decide) (by decide)

/-! ### Lemmas about the segmenter loop -/

/-- The shrink loop never exceeds its starting point. -/
lemma shrinkEnd_le (tokens : List Token) (poss : List Str) (start : Nat) :
    ∀ e, shrinkEnd tokens poss start e ≤ e
  | 0 => le_refl 0
  | e + 1 => by
    unfold shrinkEnd
    by_cases h1 : e + 1 ≤ start
    · rw [if_pos h1]
    · rw [if_neg h1]
      by_cases h2 : poss.contains (concatTokenTexts tokens start (e + 1)) = true
      · rw [if_pos h2]
      · rw [if_neg h2]
        exact le_trans (shrinkEnd_le tokens poss start e) (Nat.le_succ e)

/-- A shrink result strictly beyond the window start is an exact candidate
match. -/
lemma shrinkEnd_mem (tokens : List Token) (poss : List Str) (start : Nat) :
    ∀ e, start < shrinkEnd tokens poss start e →
      poss.contains
        (concatTokenTexts tokens start (shrinkEnd tokens poss start e)) = true
  | 0 => by intro h; exact absurd h (by simp [shrinkEnd])
  | e + 1 => by
    intro h
    unfold shrinkEnd at h ⊢
    by_cases h1 : e + 1 ≤ start
    · rw [if_pos h1] at h
      omega
    · rw [if_neg h1] at h ⊢
      by_cases h2 : poss.contains (concatTokenTexts tokens start (e + 1)) = true
      · rw [if_pos h2] at h ⊢
        exact h2
      · rw [if_neg h2] at h ⊢
        exact shrinkEnd_mem tokens poss start e h

/-- No window longer than the shrink result (within the explored window) is
an exact candidate match. -/
lemma shrinkEnd_max (tokens : List Token) (poss : List Str) (start : Nat) :
    ∀ e e2, shrinkEnd tokens poss start e < e2 → e2 ≤ e →
      poss.contains (concatTokenTexts tokens start e2) = false
  | 0, e2 => by intro h1 h2; omega
  | e + 1, e2 => by
    intro h1 h2
    unfold shrinkEnd at h1
    by_cases hs : e + 1 ≤ start
    · rw [if_pos hs] at h1
      omega
    · rw [if_neg hs] at h1
      by_cases hc : poss.contains (concatTokenTexts tokens start (e + 1)) = true
      · rw [if_pos hc] at h1
        omega
      · rw [if_neg hc] at h1
        by_cases he : e2 = e + 1
        · rw [he]
          exact Bool.eq_false_iff.mpr hc
        · exact shrinkEnd_max tokens poss start e e2 h1 (by omega)

/-- The emitted window always advances the start by at least one token. -/
lemma segNewStart_ge (tokens : List Token) (poss : List Str) (start e : Nat) :
    start + 1 ≤ segNewStart tokens poss start e := by
  unfold segNewStart
  by_cases h1 : shrinkEnd tokens poss start e ≤ start + 1
  · rw [if_pos h1]
  · rw [if_neg h1]
    omega

/-- C10 helper: the segmenter loop completes (returns a value) whenever the
fuel is at least `(|tokens| - start) * (|tokens| + 3) + (|tokens| + 1 - e) + 1`. -/
lemma segLoop_isSome (tokens : List Token) (db : Db) :
    ∀ (fuel start e : Nat) (poss : List Str),
      (tokens.length - start) * (tokens.length + 3) +
        (tokens.length + 1 - e) + 1 ≤ fuel →
      (segLoop tokens db fuel start e poss).isSome := by
  intro fuel
  induction fuel using Nat.strong_induction_on with
  | _ fuel ih =>
    intro start e poss hfuel
    match fuel, hfuel with
    | fuel + 1, hfuel =>
      unfold segLoop
      by_cases hs : start < tokens.length
      · rw [if_pos hs]
        by_cases hcond : (decide (e < tokens.length) &&
            poss.any (fun p => (concatTokenTexts tokens start e).isPrefixOf p))
            = true
        · rw [if_pos hcond]
          have helt : e < tokens.length := by
            have := (Bool.and_eq_true _ _).mp hcond
            exact of_decide_eq_true this.1
          refine ih fuel (Nat.lt_succ_self _) start (e + 1) poss ?_
          revert hfuel
          generalize (tokens.length - start) * (tokens.length + 3) = R
          intro hfuel
          omega
        · rw [if_neg hcond]
          rw [Option.isSome_map']
          set ns := segNewStart tokens poss start e with hns
          have hge : start + 1 ≤ ns := segNewStart_ge tokens poss start e
          refine ih fuel (Nat.lt_succ_self _) ns (ns + 1) _ ?_
          have h1 : tokens.length - ns + 1 ≤ tokens.length - start := by omega
          have h2 : (tokens.length - ns + 1) * (tokens.length + 3) ≤
              (tokens.length - start) * (tokens.length + 3) :=
            Nat.mul_le_mul_right _ h1
          have h3 : (tokens.length - ns + 1) * (tokens.length + 3) =
              (tokens.length - ns) * (tokens.length + 3) + (tokens.length + 3) :=
            Nat.succ_mul _ _
          revert hfuel h2 h3
          generalize (tokens.length - ns) * (tokens.length + 3) = P
          generalize (tokens.length - ns + 1) * (tokens.length + 3) = Q
          generalize (tokens.length - start) * (tokens.length + 3) = R
          intro hfuel h2 h3
          omega
      · rw [if_neg hs]
        rfl

/-- C10 — confirmed.  For every finite token sequence and every dictionary,
the segmenter's main loop in `Annotator::annotate` terminates: each iteration
either increments the window end (only while it is strictly below the token
count) or advances the window start by at least one token, so with the stated
polynomial fuel the fueled loop never exhausts its fuel and returns a result. -/
theorem C10_segmenter_terminates (tokens : List Token) (db : Db)
    (fuel start e : Nat) (poss : List Str)
    (h : (tokens.length - start) * (tokens.length + 3) +
      (tokens.length + 1 - e) + 1 ≤ fuel) :
    (segLoop tokens db fuel start e poss).isSome :=
  segLoop_isSome tokens db fuel start e poss h

/-- Witness for C10: on the two-token stream with the あい dictionary, the
loop with its polynomial fuel bound returns a value. -/
theorem C10_witness :
    (segLoop tokensMerge dbMerge 14 0 1
      (query_text_entries_starting_with dbMerge (strOf "あ"))).isSome := by
  exact C10_segmenter_terminates tokensMerge dbMerge 14 0 1 _ (by decide)

/-- C1 helper: a completed segmenter run tiles the token stream from its
start: the emitted windows concatenate to the remaining tokens' surface text,
and every window starts in bounds and is non-empty. -/
lemma segLoop_cover (tokens : List Token) (db : Db) :
    ∀ (fuel start e : Nat) (poss : List Str) (segs : List Segment),
      segLoop tokens db fuel start e poss = some segs →
      ((segs.map (fun g => concatTokenTexts tokens g.startIdx g.stopIdx)).flatten =
        ((tokens.drop start).map (fun t => t.text)).flatten) ∧
      ∀ g ∈ segs, g.startIdx < tokens.length ∧ g.startIdx < g.stopIdx := by
  intro fuel
  induction fuel using Nat.strong_induction_on with
  | _ fuel ih =>
    intro start e poss segs hrun
    match fuel, hrun with
    | fuel + 1, hrun =>
      unfold segLoop at hrun
      by_cases hs : start < tokens.length
      · rw [if_pos hs] at hrun
        by_cases hcond : (decide (e < tokens.length) &&
            poss.any (fun p => (concatTokenTexts tokens start e).isPrefixOf p))
            = true
        · rw [if_pos hcond] at hrun
          exact ih fuel (Nat.lt_succ_self _) start (e + 1) poss segs hrun
        · rw [if_neg hcond] at hrun
          cases hrec : segLoop tokens db fuel (segNewStart tokens poss start e)
              (segNewStart tokens poss start e + 1)
              (segPoss2 tokens db poss (segNewStart tokens poss start e)) with
          | none => rw [hrec] at hrun; cases hrun
          | some segs2 =>
            rw [hrec] at hrun
            simp only [Option.map_some', Option.some.injEq] at hrun
            obtain ⟨hflat, hbounds⟩ := ih fuel (Nat.lt_succ_self _) _ _ _ segs2 hrec
            have hge : start + 1 ≤ segNewStart tokens poss start e :=
              segNewStart_ge tokens poss start e
            subst hrun
            constructor
            · simp only [List.map_cons, List.flatten_cons]
              rw [hflat]
              unfold concatTokenTexts
              have hsplit : tokens.drop start =
                  (tokens.drop start).take (segNewStart tokens poss start e - start) ++
                    tokens.drop (segNewStart tokens poss start e) := by
                conv_lhs => rw [← List.take_append_drop
                  (segNewStart tokens poss start e - start) (tokens.drop start)]
                congr 1
                rw [List.drop_drop]
                congr 1
                omega
              conv_rhs => rw [hsplit]
              rw [List.map_append, List.flatten_append]
            · intro g hg
              rcases List.mem_cons.mp hg with hg | hg
              · subst hg
                exact ⟨hs, by simpa using hge⟩
              · exact hbounds g hg
      · rw [if_neg hs] at hrun
        have hse : segs = [] := (Option.some.inj hrun).symm
        subst hse
        constructor
        · rw [List.drop_eq_nil_of_le (by omega)]
          rfl
        · intro g hg
          cases hg

/-- With avoid-common off, a fragment's text is the internal token's original
text. -/
lemma annotate_internal_token_text (db : Db) (tok : InternalToken) :
    (annotate_internal_token db false tok).text = tok.original_text := by
  unfold annotate_internal_token
  simp only [Bool.false_and, Bool.false_eq_true, if_false]
  cases tok.reading_hint <;> rfl

/-- The original text of any internal token built from a lindera token is the
token's surface text. -/
lemma internalTokenOfToken_orig (f : Str → Str) (t : Token) :
    (internalTokenOfToken f t).original_text = t.text := by
  unfold internalTokenOfToken
  split <;> rfl

/-- The original text of a segment's internal token is the concatenated
surface text of its window. -/
lemma internalTokenOfSegment_orig (toHiragana : Str → Str)
    (tokens : List Token) (g : Segment) (h1 : g.startIdx < tokens.length)
    (_h2 : g.startIdx < g.stopIdx) :
    (internalTokenOfSegment toHiragana tokens g).original_text =
      concatTokenTexts tokens g.startIdx g.stopIdx := by
  unfold internalTokenOfSegment
  by_cases hone : g.stopIdx = g.startIdx + 1
  · rw [if_pos hone, internalTokenOfToken_orig, hone]
    unfold concatTokenTexts
    rw [Nat.add_sub_cancel_left, List.drop_eq_getElem_cons h1,
      List.getD_eq_getElem tokens _ h1, List.take_succ_cons, List.take_zero]
    simp
  · rw [if_neg hone]

/-- C1 — amended.  Given the external tokenizer's ordered, gapless token
sequence covering the input, and with avoid-common mode off: for inputs that
are not whitespace-only, concatenating the text fields of all fragments of
the `AnnotatedText` returned by `Annotator::annotate` reproduces the input
exactly; empty or whitespace-only inputs yield an `AnnotatedText` with zero
fragments (whose concatenation is therefore the empty string). -/
theorem C1_reconstruction (db : Db) (toHiragana : Str → Str) (text : Str)
    (tokens : List Token)
    (hcover : (tokens.map (fun t => t.text)).flatten = text) :
    (trimIsEmpty text = true →
      annotate db false toHiragana text tokens = some ⟨[]⟩) ∧
    (trimIsEmpty text = false →
      ∃ res : AnnotatedText,
        annotate db false toHiragana text tokens = some res ∧
        (res.fragments.map (fun f => f.text)).flatten = text) := by
  constructor
  · intro hws
    unfold annotate
    rw [if_pos hws]
  · intro hws
    have htne : text ≠ [] := by
      intro hx
      rw [hx] at hws
      cases hws
    have htk : tokens ≠ [] := by
      intro hx
      rw [hx] at hcover
      exact htne hcover.symm
    match tokens, hcover, htk with
    | t0 :: rest, hcover, _ =>
      have hgoal : annotate db false toHiragana text (t0 :: rest) =
          (segLoop (t0 :: rest) db (segFuel (t0 :: rest)) 0 1
            (query_text_entries_starting_with db t0.text)).map
          (fun segs =>
            ({ fragments := segs.map (fun seg => annotate_internal_token db false
                (internalTokenOfSegment toHiragana (t0 :: rest) seg)) } :
              AnnotatedText)) := by
        unfold annotate
        rw [if_neg (by rw [hws]; simp)]
      rw [hgoal]
      have hfuel : ((t0 :: rest).length - 0) * ((t0 :: rest).length + 3) +
          ((t0 :: rest).length + 1 - 1) + 1 ≤ segFuel (t0 :: rest) := by
        unfold segFuel
        generalize (t0 :: rest).length = L
        have h1 : (L - 0) * (L + 3) = L * (L + 3) := by rw [Nat.sub_zero]
        rw [h1]
        have h2 : L * (L + 3) + L ≤ L * (L + 4) := by
          conv_rhs => rw [Nat.mul_succ]
        have h3 : L * (L + 4) + 4 ≤ (L + 1) * (L + 4) := by
          rw [Nat.succ_mul]
          omega
        revert h2 h3
        generalize L * (L + 3) = P
        generalize L * (L + 4) = Q
        generalize (L + 1) * (L + 4) = R
        intro h2 h3
        omega
      have hsome := segLoop_isSome (t0 :: rest) db (segFuel (t0 :: rest)) 0 1
        (query_text_entries_starting_with db t0.text) hfuel
      cases hrun : segLoop (t0 :: rest) db (segFuel (t0 :: rest)) 0 1
          (query_text_entries_starting_with db t0.text) with
      | none => rw [hrun] at hsome; cases hsome
      | some segs =>
        obtain ⟨hflat, hbounds⟩ :=
          segLoop_cover (t0 :: rest) db (segFuel (t0 :: rest)) 0 1 _ segs hrun
        refine ⟨_, rfl, ?_⟩
        simp only [List.map_map]
        have hmap : (segs.map (fun g =>
            (annotate_internal_token db false
              (internalTokenOfSegment toHiragana (t0 :: rest) g)).text)) =
            segs.map (fun g => concatTokenTexts (t0 :: rest) g.startIdx g.stopIdx) := by
          apply List.map_congr_left
          intro g hg
          rw [annotate_internal_token_text,
            internalTokenOfSegment_orig toHiragana (t0 :: rest) g
              (hbounds g hg).1 (hbounds g hg).2]
        rw [show ((fun frag => frag.text) ∘ fun seg =>
            annotate_internal_token db false
              (internalTokenOfSegment toHiragana (t0 :: rest) seg)) =
            (fun g => (annotate_internal_token db false
              (internalTokenOfSegment toHiragana (t0 :: rest) g)).text) from rfl]
        rw [hmap, hflat, List.drop_zero, hcover]

/-- C1 — counterexample to the claim as stated, in two independent parts.
First: the whitespace-only input consisting of one space yields zero
fragments, whose concatenation is the empty string, not the input.  Second:
with avoid-common mode on, the token 言われ (lemma 言う, flagged common in
the dictionary) is emitted as a fragment whose text is the lemma 言う rather
than the surface text, so the concatenation does not reproduce the input. -/
theorem C1_counterexample :
    (annotate dbEmpty false id [' '] [⟨[' '], none⟩] = some ⟨[]⟩ ∧
      (([] : List AnnotatedTextFragment).map (fun f => f.text)).flatten ≠
        [' ']) ∧
    (annotate dbCommonVerb true id (strOf "言われ") [tokenIware] =
        some ⟨[⟨strOf "言う", []⟩]⟩ ∧
      (([⟨strOf "言う", []⟩] : List AnnotatedTextFragment).map
        (fun f => f.text)).flatten ≠ strOf "言われ") := by
  exact ⟨⟨by decide, by decide⟩, ⟨by decide, by decide⟩⟩

/-- Witness for C1 (amended): the two-token input あい is segmented (into one
merged fragment, as it happens) and reassembles to the input exactly. -/
theorem C1_witness :
    ∃ res : AnnotatedText,
      annotate dbMerge false id (strOf "あい") tokensMerge = some res ∧
      (res.fragments.map (fun f => f.text)).flatten = strOf "あい" := by
  exact (C1_reconstruction dbMerge id (strOf "あい") tokensMerge
    (by decide)).2 (by decide)

/-! ### C2: merged windows of the segmenter -/

/-- C2 helper: in a completed segmenter run whose candidate list is the
prefix query for the token at the window start, every merged window's
concatenation is an exact candidate, and no strictly longer window inside
the explored window is. -/
lemma segLoop_merged (tokens : List Token) (db : Db) :
    ∀ (fuel start e : Nat) (poss : List Str) (segs : List Segment),
      segLoop tokens db fuel start e poss = some segs →
      (start < tokens.length →
        poss = query_text_entries_starting_with db
          ((tokens.getD start ⟨[], none⟩).text)) →
      ∀ g ∈ segs, g.startIdx + 2 ≤ g.stopIdx →
        (concatTokenTexts tokens g.startIdx g.stopIdx ∈
          query_text_entries_starting_with db
            ((tokens.getD g.startIdx ⟨[], none⟩).text)) ∧
        (∀ e2, g.stopIdx < e2 → e2 ≤ g.explored →
          concatTokenTexts tokens g.startIdx e2 ∉
            query_text_entries_starting_with db
              ((tokens.getD g.startIdx ⟨[], none⟩).text)) := by
  intro fuel
  induction fuel using Nat.strong_induction_on with
  | _ fuel ih =>
    intro start e poss segs hrun hposs g hg hm
    match fuel, hrun with
    | fuel + 1, hrun =>
      unfold segLoop at hrun
      by_cases hs : start < tokens.length
      · rw [if_pos hs] at hrun
        by_cases hcond : (decide (e < tokens.length) &&
            poss.any (fun p => (concatTokenTexts tokens start e).isPrefixOf p))
            = true
        · rw [if_pos hcond] at hrun
          exact ih fuel (Nat.lt_succ_self _) start (e + 1) poss segs hrun hposs
            g hg hm
        · rw [if_neg hcond] at hrun
          cases hrec : segLoop tokens db fuel (segNewStart tokens poss start e)
              (segNewStart tokens poss start e + 1)
              (segPoss2 tokens db poss (segNewStart tokens poss start e)) with
          | none => rw [hrec] at hrun; cases hrun
          | some segs2 =>
            rw [hrec] at hrun
            simp only [Option.map_some', Option.some.injEq] at hrun
            subst hrun
            rcases List.mem_cons.mp hg with hg | hg
            · subst hg
              have hm' : start + 2 ≤ segNewStart tokens poss start e := hm
              have hply := hposs hs
              have hns : segNewStart tokens poss start e =
                  shrinkEnd tokens poss start e := by
                unfold segNewStart at hm' ⊢
                by_cases hx : shrinkEnd tokens poss start e ≤ start + 1
                · rw [if_pos hx] at hm'
                  omega
                · rw [if_neg hx]
              have hgt : start < shrinkEnd tokens poss start e := by
                have := hm'
                rw [hns] at this
                omega
              constructor
              · show concatTokenTexts tokens start (segNewStart tokens poss start e) ∈ _
                rw [← hply, hns]
                have := shrinkEnd_mem tokens poss start e hgt
                simpa using this
              · intro e2 h1 h2
                show concatTokenTexts tokens start e2 ∉ _
                rw [← hply]
                intro hmem
                have hc := shrinkEnd_max tokens poss start e e2
                  (by rw [← hns]; exact h1) h2
                rw [show (poss.contains (concatTokenTexts tokens start e2)) =
                  true from by simpa using hmem] at hc
                cases hc
            · refine ih fuel (Nat.lt_succ_self _) _ _ _ segs2 hrec ?_ g hg hm
              intro hlt
              unfold segPoss2
              cases hx : tokens[segNewStart tokens poss start e]? with
              | some t =>
                have hgd : tokens.getD (segNewStart tokens poss start e)
                    ⟨[], none⟩ = t := by
                  rw [List.getD_eq_getElem?_getD, hx]
                  rfl
                rw [hgd]
              | none =>
                exfalso
                have := List.getElem?_eq_none_iff.mp hx
                simp at this
                omega
      · rw [if_neg hs] at hrun
        have hse : segs = [] := (Option.some.inj hrun).symm
        subst hse
        cases hg

/-- C2 — confirmed.  For every token sequence and dictionary, each window the
segmenter emits that merges two or more tokens satisfies: its internal token
has the concatenation of those tokens' surface texts as both its original
text and its lookup key, and carries no reading hint; that concatenation
exactly equals the full text of some entry of the candidate set returned by
the prefix query on the window's first token (membership, not mere prefix);
and no strictly longer token window starting at the same position, within
the window explored when the match was closed, equals a candidate's full
text. -/
theorem C2_merged_windows (db : Db) (tokens : List Token)
    (toHiragana : Str → Str) (fuel start e : Nat) (poss : List Str)
    (segs : List Segment)
    (hrun : segLoop tokens db fuel start e poss = some segs)
    (hposs : start < tokens.length →
      poss = query_text_entries_starting_with db
        ((tokens.getD start ⟨[], none⟩).text))
    (g : Segment) (hg : g ∈ segs) (hmerged : g.startIdx + 2 ≤ g.stopIdx) :
    (internalTokenOfSegment toHiragana tokens g).original_text =
      concatTokenTexts tokens g.startIdx g.stopIdx ∧
    (internalTokenOfSegment toHiragana tokens g).lookup_text =
      concatTokenTexts tokens g.startIdx g.stopIdx ∧
    (internalTokenOfSegment toHiragana tokens g).reading_hint = none ∧
    concatTokenTexts tokens g.startIdx g.stopIdx ∈
      query_text_entries_starting_with db
        ((tokens.getD g.startIdx ⟨[], none⟩).text) ∧
    ∀ e2, g.stopIdx < e2 → e2 ≤ g.explored →
      concatTokenTexts tokens g.startIdx e2 ∉
        query_text_entries_starting_with db
          ((tokens.getD g.startIdx ⟨[], none⟩).text) := by
  have hnotone : ¬ g.stopIdx = g.startIdx + 1 := by omega
  obtain ⟨hmem, hmax⟩ :=
    segLoop_merged tokens db fuel start e poss segs hrun hposs g hg hmerged
  refine ⟨?_, ?_, ?_, hmem, hmax⟩
  · unfold internalTokenOfSegment
    rw [if_neg hnotone]
  · unfold internalTokenOfSegment
    rw [if_neg hnotone]
  · unfold internalTokenOfSegment
    rw [if_neg hnotone]

/-- Witness for C2: on the two-token stream あ, い with the dictionary entry
あい, the segmenter emits the merged window `[0, 2)` whose lookup key is the
concatenation あい with no reading hint, an exact member of the prefix-query
candidates for あ. -/
theorem C2_witness :
    (internalTokenOfSegment id tokensMerge ⟨0, 2, 2⟩).lookup_text =
      strOf "あい" ∧
    (internalTokenOfSegment id tokensMerge ⟨0, 2, 2⟩).reading_hint = none ∧
    strOf "あい" ∈ query_text_entries_starting_with dbMerge
      ((tokensMerge.getD 0 ⟨[], none⟩).text) := by
  have h := C2_merged_windows dbMerge tokensMerge id (segFuel tokensMerge) 0 1
    (query_text_entries_starting_with dbMerge
      ((tokensMerge.getD 0 ⟨[], none⟩).text))
    [⟨0, 2, 2⟩] (by decide) (fun _ => rfl) ⟨0, 2, 2⟩ (by decide) (by decide)
  refine ⟨?_, h.2.2.1, ?_⟩
  · rw [h.2.1]
    decide
  · exact (show concatTokenTexts tokensMerge 0 2 = strOf "あい" from by decide) ▸
      h.2.2.2.1

end Autoruby
